import Mathlib

/-!
# Verification of the chunky document-chunking pipeline

A shallow embedding of the core of the `chunky` markdown chunker:

* the greedy packer (`chunkBuilder.appendUnit` / `flush`, `traverseUnits`,
  `chunkDocument` from `pkg/chunker`),
* the section-tree fold algorithm (`worker.fold`, `spliceText`,
  `parentForLevel` from the default parser),
* the transform walk (`section.ApplyTransform` and the per-transform loop in
  `defaultChunker.Push`),
* budget arithmetic (`New`, `EffectiveBudget`, the body-budget check in `Push`),
* jumbo-chunk reporting (`RunCmd.Run`),
* the measurement layer (`tokenizer.Tokenize`).

Go strings / byte slices are modelled as `List Char`; Go `int` token counts are
modelled as `Int`.  Go's `float64` overhead ratio is modelled as `ℚ` with exact
arithmetic.  Mutable trees linked by parent pointers are modelled by explicit
stack-of-frames state passing (a frame records the still-open section; a child
is attached to its parent when the frame is popped, which is observationally
the same as Go's attach-at-creation since popped sections are never mutated
again).
-/

namespace Chunky

/-- `tokenizer.TokenizedSection`: measured form of a section node.
Fields mirror the Go struct: `content` stands for `section.Content()` (the
Go struct holds a pointer to the `Section`; only its content is read by the
packer), `contentTokens`, `subtreeTokens`, `children`. -/
inductive TokenizedSection where
  | mk (content : List Char) (contentTokens : Int) (subtreeTokens : Int)
       (children : List TokenizedSection)

/-- `GetSection().Content()` of a tokenized node. -/
def TokenizedSection.content : TokenizedSection → List Char
  | .mk c _ _ _ => c

/-- `GetContentTokens()`. -/
def TokenizedSection.contentTokens : TokenizedSection → Int
  | .mk _ t _ _ => t

/-- `GetSubtreeTokens()`. -/
def TokenizedSection.subtreeTokens : TokenizedSection → Int
  | .mk _ _ s _ => s

/-- `GetChildren()`. -/
def TokenizedSection.children : TokenizedSection → List TokenizedSection
  | .mk _ _ _ cs => cs

/-- Number of nodes of a tokenized tree (termination measure). -/
def TokenizedSection.size : TokenizedSection → Nat
  | .mk _ _ _ cs => 1 + (cs.attach.map fun c => c.1.size).sum
decreasing_by
  have := List.sizeOf_lt_of_mem c.2
  simp only [TokenizedSection.mk.sizeOf_spec]
  omega

theorem tokSize_eq (c : List Char) (ct st : Int) (cs : List TokenizedSection) :
    TokenizedSection.size (.mk c ct st cs) = 1 + (cs.map TokenizedSection.size).sum := by
  simp only [TokenizedSection.size]
  rw [List.attach_map_coe]

theorem tokSize_lt_of_mem {c t : TokenizedSection}
    (h : c ∈ t.children) : c.size < t.size := by
  obtain ⟨cc, ct, st, cs⟩ := t
  simp only [TokenizedSection.children] at h
  rw [tokSize_eq]
  have : c.size ≤ (cs.map TokenizedSection.size).sum :=
    List.single_le_sum (by intro x _; positivity) _ (List.mem_map_of_mem _ h)
  omega

/-- Well-founded induction over tokenized trees via child membership. -/
theorem tokInductionOn (P : TokenizedSection → Prop)
    (step : ∀ t, (∀ c ∈ t.children, P c) → P t) : ∀ t, P t := by
  intro t
  have h : ∀ n, ∀ t : TokenizedSection, t.size ≤ n → P t := by
    intro n
    induction n with
    | zero =>
      intro t ht
      obtain ⟨c, ct, st, cs⟩ := t
      rw [tokSize_eq] at ht
      omega
    | succ n ih =>
      intro t ht
      refine step t fun c hc => ih c ?_
      have := tokSize_lt_of_mem hc
      omega
  exact h t.size t le_rfl

/-- The `unit` type of `pkg/chunker/traverse.go`: one node's own content plus
its token count. -/
structure ChunkUnit where
  text : List Char
  tokens : Int
deriving DecidableEq, Repr

/-- Loop body of `traverseUnits`: an explicit stack, popping the top node,
yielding its content when `GetContentTokens() > 0`, then pushing its children
so that they pop left-to-right.  The Go slice keeps the stack top at the end
and pushes children in reverse; we keep the top at the list head and push the
children in order, which pops in the same sequence. -/
def traverseLoop : List TokenizedSection → List ChunkUnit → List ChunkUnit
  | [], acc => acc
  | t :: rest, acc =>
    let acc' := if t.contentTokens > 0 then acc ++ [⟨t.content, t.contentTokens⟩] else acc
    traverseLoop (t.children ++ rest) acc'
termination_by st _ => (st.map TokenizedSection.size).sum
decreasing_by
  obtain ⟨c, ct, st', cs⟩ := t
  simp only [List.map_cons, List.map_append, List.sum_cons, List.sum_append,
    TokenizedSection.children, tokSize_eq]
  omega

/-- `traverseUnits`: pre-order traversal of the tokenized section tree,
yielding each node's self content as a unit. -/
def traverseUnits (root : TokenizedSection) : List ChunkUnit :=
  traverseLoop [root] []

/-- Pre-order unit listing, stated recursively (the specification-level
description of the traversal: parent before children, children left to
right, one unit per node with positive content-token count). -/
def preorderUnits : TokenizedSection → List ChunkUnit
  | .mk c ct _ cs =>
    (if ct > 0 then [⟨c, ct⟩] else []) ++
      (cs.attach.map fun x => preorderUnits x.1).flatten
decreasing_by
  have := List.sizeOf_lt_of_mem x.2
  simp only [TokenizedSection.mk.sizeOf_spec]
  omega

theorem preorderUnits_eq (c : List Char) (ct st : Int) (cs : List TokenizedSection) :
    preorderUnits (.mk c ct st cs) =
      (if ct > 0 then [⟨c, ct⟩] else []) ++ (cs.map preorderUnits).flatten := by
  simp only [preorderUnits]
  rw [List.attach_map_coe]

/-- The stack loop agrees with the recursive pre-order description. -/
theorem traverseLoop_eq_preorder :
    ∀ n (stack : List TokenizedSection) (acc : List ChunkUnit),
      (stack.map TokenizedSection.size).sum ≤ n →
      traverseLoop stack acc = acc ++ (stack.map preorderUnits).flatten := by
  intro n
  induction n with
  | zero =>
    intro stack acc h
    cases stack with
    | nil => simp [traverseLoop]
    | cons t rest =>
      obtain ⟨c, ct, st', cs⟩ := t
      rw [List.map_cons, List.sum_cons, tokSize_eq] at h
      omega
  | succ n ih =>
    intro stack acc h
    cases stack with
    | nil => simp [traverseLoop]
    | cons t rest =>
      rw [traverseLoop]
      obtain ⟨c, ct, st', cs⟩ := t
      rw [List.map_cons, List.sum_cons, tokSize_eq] at h
      have hrec : ((cs ++ rest).map TokenizedSection.size).sum ≤ n := by
        rw [List.map_append, List.sum_append]; omega
      simp only [TokenizedSection.children, TokenizedSection.contentTokens,
        TokenizedSection.content]
      rw [ih _ _ hrec]
      rw [List.map_cons, List.flatten_cons, preorderUnits_eq]
      simp only [List.map_append, List.flatten_append]
      split <;> simp

theorem traverseUnits_eq_preorder (root : TokenizedSection) :
    traverseUnits root = preorderUnits root := by
  have := traverseLoop_eq_preorder ([root].map TokenizedSection.size).sum [root] [] le_rfl
  simpa [traverseUnits] using this

/-- Every unit yielded by the pre-order traversal has a positive token count. -/
theorem preorderUnits_pos :
    ∀ t : TokenizedSection, ∀ u ∈ preorderUnits t, 0 < u.tokens := by
  refine tokInductionOn _ ?_
  intro t ih u hu
  obtain ⟨c, ct, st, cs⟩ := t
  rw [preorderUnits_eq] at hu
  rcases List.mem_append.1 hu with h | h
  · split at h
    · rcases List.mem_singleton.1 h with rfl
      simpa using by assumption
    · simp at h
  · obtain ⟨l, hl, hul⟩ := List.mem_flatten.1 h
    obtain ⟨child, hc, rfl⟩ := List.mem_map.1 hl
    exact ih child (by simpa [TokenizedSection.children] using hc) u hul

/-- `chunker.Chunk`: the final output record. -/
structure Chunk where
  filePath : String
  fileTitle : String
  chunkIndex : Int
  text : List Char
  tokens : Int
deriving DecidableEq, Repr

/-- `chunker.chunkBuilder`: greedy accumulator state. -/
structure ChunkBuilder where
  filePath : String
  fileTitle : String
  frontBlock : List Char
  frontTokens : Int
  bodyBudget : Int
  parts : List (List Char)
  tokens : Int
  index : Int
deriving Repr

/-- `newChunkBuilder`. -/
def newChunkBuilder (filePath fileTitle : String) (frontBlock : List Char)
    (frontTokens bodyBudget : Int) : ChunkBuilder :=
  { filePath := filePath, fileTitle := fileTitle, frontBlock := frontBlock,
    frontTokens := frontTokens, bodyBudget := bodyBudget,
    parts := [], tokens := 0, index := 1 }

/-- `chunkBuilder.flush`: creates a chunk from accumulated content and resets
the builder; returns `none` if there is nothing to flush. -/
def ChunkBuilder.flush (b : ChunkBuilder) : Option Chunk × ChunkBuilder :=
  if b.parts = [] then (none, b)
  else
    let body := b.parts.flatten
    let text := b.frontBlock ++ body
    let tokens := b.frontTokens + b.tokens
    let chunkIndex := b.index
    (some { filePath := b.filePath, fileTitle := b.fileTitle,
            chunkIndex := chunkIndex, text := text, tokens := tokens },
     { b with parts := [], tokens := 0, index := b.index + 1 })

/-- `chunkBuilder.appendUnit`: adds a content unit, returning any chunks
produced.  Jumbo units (tokens above `bodyBudget`) get their own dedicated
chunk after flushing the accumulator; normal units flush first only when they
would overflow the running total. -/
def ChunkBuilder.appendUnit (b : ChunkBuilder) (unitText : List Char)
    (unitTokens : Int) : List Chunk × ChunkBuilder :=
  if unitTokens ≤ 0 then ([], b)
  else if unitTokens > b.bodyBudget then
    -- Case 1: JUMBO unit (exceeds body budget entirely)
    let fl := b.flush
    let chunks := fl.1.toList
    let b1 := fl.2
    let jumbo : Chunk :=
      { filePath := b1.filePath, fileTitle := b1.fileTitle,
        chunkIndex := b1.index, text := b1.frontBlock ++ unitText,
        tokens := b1.frontTokens + unitTokens }
    (chunks ++ [jumbo], { b1 with index := b1.index + 1 })
  else
    -- Case 2: normal unit
    let needTokens := b.tokens + unitTokens
    let fl := if needTokens > b.bodyBudget then b.flush else (none, b)
    let chunks := fl.1.toList
    let b1 := fl.2
    (chunks, { b1 with parts := b1.parts ++ [unitText],
                       tokens := b1.tokens + unitTokens })

/-- The unit loop of `chunkDocument`: append every unit in order, accumulating
the produced chunks. -/
def processUnits (b : ChunkBuilder) (us : List ChunkUnit) :
    List Chunk × ChunkBuilder :=
  us.foldl (fun p u =>
    let r := p.2.appendUnit u.text u.tokens
    (p.1 ++ r.1, r.2)) ([], b)

/-- `chunkDocumentParams`. -/
structure ChunkDocumentParams where
  filePath : String
  fileTitle : String
  frontBlock : List Char
  frontTokens : Int
  bodyBudget : Int
  root : TokenizedSection

/-- `chunkDocument`: traverse the tokenized tree, append every unit, then
flush the remaining content as a final chunk. -/
def chunkDocument (p : ChunkDocumentParams) : List Chunk :=
  let b := newChunkBuilder p.filePath p.fileTitle p.frontBlock p.frontTokens p.bodyBudget
  let r := processUnits b (traverseUnits p.root)
  r.1 ++ (r.2.flush).1.toList

/-- Strip a chunk back to its body: drop the header prefix from its text. -/
def stripFront (frontBlock : List Char) (c : Chunk) : List Char :=
  c.text.drop frontBlock.length

theorem flush_config (b : ChunkBuilder) :
    (b.flush).2.filePath = b.filePath ∧ (b.flush).2.fileTitle = b.fileTitle ∧
    (b.flush).2.frontBlock = b.frontBlock ∧ (b.flush).2.frontTokens = b.frontTokens ∧
    (b.flush).2.bodyBudget = b.bodyBudget := by
  unfold ChunkBuilder.flush
  split <;> simp

theorem appendUnit_config (b : ChunkBuilder) (t : List Char) (tok : Int) :
    (b.appendUnit t tok).2.filePath = b.filePath ∧
    (b.appendUnit t tok).2.fileTitle = b.fileTitle ∧
    (b.appendUnit t tok).2.frontBlock = b.frontBlock ∧
    (b.appendUnit t tok).2.frontTokens = b.frontTokens ∧
    (b.appendUnit t tok).2.bodyBudget = b.bodyBudget := by
  by_cases h0 : tok ≤ 0 <;> by_cases hj : tok > b.bodyBudget <;>
    by_cases hover : b.tokens + tok > b.bodyBudget <;>
    by_cases hparts : b.parts = [] <;>
    simp [ChunkBuilder.appendUnit, ChunkBuilder.flush, h0, hj, hover, hparts]

/-- One `appendUnit` call distributes the appended text into pending parts and
emitted chunk bodies without loss, duplication, or splitting: the bodies of
the produced chunks are the flattenings of complete groups of parts, and
groups plus the new pending parts equal old pending parts plus the unit. -/
theorem appendUnit_partition (b : ChunkBuilder) (t : List Char) (tok : Int)
    (hp : 0 < tok) :
    ∃ gs : List (List (List Char)),
      ((b.appendUnit t tok).1).map (stripFront b.frontBlock) = gs.map List.flatten ∧
      gs.flatten ++ ((b.appendUnit t tok).2).parts = b.parts ++ [t] := by
  have h0 : ¬ tok ≤ 0 := by omega
  by_cases hj : tok > b.bodyBudget
  · by_cases hparts : b.parts = []
    · refine ⟨[[t]], ?_, ?_⟩ <;>
        simp [ChunkBuilder.appendUnit, ChunkBuilder.flush, h0, hj, hparts,
          stripFront, List.drop_left]
    · refine ⟨[b.parts, [t]], ?_, ?_⟩ <;>
        simp [ChunkBuilder.appendUnit, ChunkBuilder.flush, h0, hj, hparts,
          stripFront, List.drop_left]
  · by_cases hover : b.tokens + tok > b.bodyBudget
    · by_cases hparts : b.parts = []
      · refine ⟨[], ?_, ?_⟩ <;>
          simp [ChunkBuilder.appendUnit, ChunkBuilder.flush, h0, hj, hover, hparts]
      · refine ⟨[b.parts], ?_, ?_⟩ <;>
          simp [ChunkBuilder.appendUnit, ChunkBuilder.flush, h0, hj, hover, hparts,
            stripFront, List.drop_left]
    · refine ⟨[], ?_, ?_⟩ <;>
        simp [ChunkBuilder.appendUnit, ChunkBuilder.flush, h0, hj, hover]

theorem processUnits_shift (f : List Chunk × ChunkBuilder → ChunkUnit → List Chunk × ChunkBuilder)
    (hf : ∀ acc b u, f (acc, b) u = (acc ++ (f ([], b) u).1, (f ([], b) u).2)) :
    ∀ (us : List ChunkUnit) (acc : List Chunk) (b : ChunkBuilder),
      us.foldl f (acc, b) = (acc ++ (us.foldl f ([], b)).1, (us.foldl f ([], b)).2) := by
  intro us
  induction us with
  | nil => simp
  | cons u us ih =>
    intro acc b
    simp only [List.foldl_cons]
    rw [hf acc b u, ih, hf [] b u]
    simp only [List.nil_append]
    rw [ih (f ([], b) u).1]
    simp

theorem processUnits_cons (b : ChunkBuilder) (u : ChunkUnit) (us : List ChunkUnit) :
    processUnits b (u :: us) =
      ((b.appendUnit u.text u.tokens).1 ++ (processUnits (b.appendUnit u.text u.tokens).2 us).1,
       (processUnits (b.appendUnit u.text u.tokens).2 us).2) := by
  unfold processUnits
  simp only [List.foldl_cons, List.nil_append]
  exact processUnits_shift _ (by intro acc b' u'; simp) us _ _

theorem processUnits_config (us : List ChunkUnit) :
    ∀ b : ChunkBuilder,
      (processUnits b us).2.filePath = b.filePath ∧
      (processUnits b us).2.fileTitle = b.fileTitle ∧
      (processUnits b us).2.frontBlock = b.frontBlock ∧
      (processUnits b us).2.frontTokens = b.frontTokens ∧
      (processUnits b us).2.bodyBudget = b.bodyBudget := by
  induction us with
  | nil => intro b; simp [processUnits]
  | cons u us ih =>
    intro b
    rw [processUnits_cons]
    have h1 := appendUnit_config b u.text u.tokens
    have h2 := ih (b.appendUnit u.text u.tokens).2
    simp only
    exact ⟨h2.1.trans h1.1, h2.2.1.trans h1.2.1, h2.2.2.1.trans h1.2.2.1,
      h2.2.2.2.1.trans h1.2.2.2.1, h2.2.2.2.2.trans h1.2.2.2.2⟩

theorem processUnits_partition (us : List ChunkUnit) :
    ∀ b : ChunkBuilder, (∀ u ∈ us, 0 < u.tokens) →
      ∃ gs : List (List (List Char)),
        ((processUnits b us).1).map (stripFront b.frontBlock) = gs.map List.flatten ∧
        gs.flatten ++ (processUnits b us).2.parts = b.parts ++ us.map ChunkUnit.text := by
  induction us with
  | nil => intro b _; exact ⟨[], by simp [processUnits], by simp [processUnits]⟩
  | cons u us ih =>
    intro b hpos
    rw [processUnits_cons]
    obtain ⟨gs1, hmap1, hparts1⟩ :=
      appendUnit_partition b u.text u.tokens (hpos u (by simp))
    obtain ⟨gs2, hmap2, hparts2⟩ :=
      ih (b.appendUnit u.text u.tokens).2 (fun v hv => hpos v (by simp [hv]))
    have hfb := (appendUnit_config b u.text u.tokens).2.2.1
    refine ⟨gs1 ++ gs2, ?_, ?_⟩
    · simp only [List.map_append, List.flatten_append, hmap1]
      rw [← hfb, hmap2]
    · simp only [List.map_cons, List.flatten_append]
      rw [List.append_assoc, hparts2, ← List.append_assoc, hparts1]
      simp

/-- The chunks of a document partition the unit texts: each chunk body is the
concatenation of a complete consecutive group of units, and the groups cover
the units exactly once, in order. -/
def ChunksPartitionUnits (frontBlock : List Char) (chunks : List Chunk)
    (unitTexts : List (List Char)) : Prop :=
  ∃ gs : List (List (List Char)),
    chunks.map (stripFront frontBlock) = gs.map List.flatten ∧
    gs.flatten = unitTexts

theorem flatten_map_flatten {α : Type} (gs : List (List (List α))) :
    (gs.map List.flatten).flatten = gs.flatten.flatten := by
  induction gs with
  | nil => simp
  | cons g gs ih => simp [ih]

/-- Chunks produced by the unit loop plus the final flush partition the unit
texts. -/
theorem processUnits_flush_partition (fp ft : String) (fb : List Char)
    (ftk bb : Int) (us : List ChunkUnit) (hpos : ∀ u ∈ us, 0 < u.tokens) :
    ChunksPartitionUnits fb
      ((processUnits (newChunkBuilder fp ft fb ftk bb) us).1
        ++ ((processUnits (newChunkBuilder fp ft fb ftk bb) us).2.flush).1.toList)
      (us.map ChunkUnit.text) := by
  obtain ⟨gs, hmap, hparts⟩ :=
    processUnits_partition us (newChunkBuilder fp ft fb ftk bb) hpos
  have hcfg := processUnits_config us (newChunkBuilder fp ft fb ftk bb)
  set r := processUnits (newChunkBuilder fp ft fb ftk bb) us with hr
  have hparts' : gs.flatten ++ r.2.parts = us.map ChunkUnit.text := by
    simpa [newChunkBuilder] using hparts
  by_cases hempty : r.2.parts = []
  · have hnone : (r.2.flush).1 = none := by
      unfold ChunkBuilder.flush
      rw [if_pos hempty]
    refine ⟨gs, ?_, ?_⟩
    · rw [hnone]
      simpa [newChunkBuilder] using hmap
    · rw [hempty, List.append_nil] at hparts'
      exact hparts'
  · have hsome : (r.2.flush).1.toList =
        [{ filePath := r.2.filePath, fileTitle := r.2.fileTitle,
           chunkIndex := r.2.index, text := r.2.frontBlock ++ r.2.parts.flatten,
           tokens := r.2.frontTokens + r.2.tokens }] := by
      unfold ChunkBuilder.flush
      rw [if_neg hempty]
      rfl
    refine ⟨gs ++ [r.2.parts], ?_, ?_⟩
    · rw [hsome, List.map_append, List.map_append]
      have h1 : List.map (stripFront fb) r.1 = List.map List.flatten gs := by
        simpa [newChunkBuilder] using hmap
      have hfbr : r.2.frontBlock = fb := by
        simpa [newChunkBuilder] using hcfg.2.2.1
      rw [h1]
      simp [stripFront, hfbr, List.drop_left]
    · rw [List.flatten_append]
      simpa using hparts'

/-- C1: for every measured section tree, header string and positive body
budget, stripping the header prefix from each chunk of `chunkDocument` and
concatenating the remainders in emission order reproduces the concatenation
of the contents of every node with positive content-token count in pre-order,
and the chunk bodies form a partition of those unit texts into complete
consecutive groups (no unit is lost, duplicated, or split across chunks). -/
theorem chunkDocument_preserves_units (p : ChunkDocumentParams)
    (hb : 0 < p.bodyBudget) :
    ((chunkDocument p).map (stripFront p.frontBlock)).flatten
        = ((preorderUnits p.root).map ChunkUnit.text).flatten
      ∧ ChunksPartitionUnits p.frontBlock (chunkDocument p)
          ((preorderUnits p.root).map ChunkUnit.text) := by
  have hpart : ChunksPartitionUnits p.frontBlock (chunkDocument p)
      ((preorderUnits p.root).map ChunkUnit.text) := by
    rw [← traverseUnits_eq_preorder]
    exact processUnits_flush_partition p.filePath p.fileTitle p.frontBlock
      p.frontTokens p.bodyBudget (traverseUnits p.root)
      (by
        intro u hu
        rw [traverseUnits_eq_preorder] at hu
        exact preorderUnits_pos p.root u hu)
  refine ⟨?_, hpart⟩
  obtain ⟨gs, hmap, hflat⟩ := hpart
  rw [hmap, flatten_map_flatten, hflat]

/-- Witness for `chunkDocument_preserves_units` at a concrete document. -/
theorem chunkDocument_preserves_units_witness :
    (0 : Int) < (ChunkDocumentParams.mk "a.md" "T" ['h'] 1 2
        (.mk ['x'] 1 1 [])).bodyBudget ∧
    (((chunkDocument (ChunkDocumentParams.mk "a.md" "T" ['h'] 1 2
          (.mk ['x'] 1 1 []))).map
            (stripFront (ChunkDocumentParams.mk "a.md" "T" ['h'] 1 2
              (.mk ['x'] 1 1 [])).frontBlock)).flatten
        = ((preorderUnits (ChunkDocumentParams.mk "a.md" "T" ['h'] 1 2
            (.mk ['x'] 1 1 [])).root).map ChunkUnit.text).flatten
      ∧ ChunksPartitionUnits (ChunkDocumentParams.mk "a.md" "T" ['h'] 1 2
            (.mk ['x'] 1 1 [])).frontBlock
          (chunkDocument (ChunkDocumentParams.mk "a.md" "T" ['h'] 1 2
            (.mk ['x'] 1 1 [])))
          ((preorderUnits (ChunkDocumentParams.mk "a.md" "T" ['h'] 1 2
            (.mk ['x'] 1 1 [])).root).map ChunkUnit.text)) :=
  ⟨by norm_num,
   chunkDocument_preserves_units
     (ChunkDocumentParams.mk "a.md" "T" ['h'] 1 2 (.mk ['x'] 1 1 []))
     (by norm_num)⟩

/-- `appendUnit` keeps the running body token count within the budget.  The
hypothesis `hinv` (an empty accumulator carries zero tokens) holds in every
reachable builder state. -/
theorem appendUnit_tokens_le (b : ChunkBuilder) (t : List Char) (tok : Int)
    (hbb : 0 ≤ b.bodyBudget) (h : b.tokens ≤ b.bodyBudget)
    (hinv : b.parts = [] → b.tokens = 0) :
    (b.appendUnit t tok).2.tokens ≤ b.bodyBudget := by
  by_cases h0 : tok ≤ 0 <;> by_cases hj : tok > b.bodyBudget <;>
    by_cases hover : b.tokens + tok > b.bodyBudget <;>
    by_cases hparts : b.parts = [] <;>
    simp [ChunkBuilder.appendUnit, ChunkBuilder.flush, h0, hj, hover, hparts,
      hinv] <;>
    first
    | omega
    | (have h9 := hinv hparts; omega)

/-- `appendUnit` preserves the empty-accumulator-zero-tokens invariant. -/
theorem appendUnit_empty_inv (b : ChunkBuilder) (t : List Char) (tok : Int)
    (hinv : b.parts = [] → b.tokens = 0) :
    (b.appendUnit t tok).2.parts = [] → (b.appendUnit t tok).2.tokens = 0 := by
  by_cases h0 : tok ≤ 0 <;> by_cases hj : tok > b.bodyBudget <;>
    by_cases hover : b.tokens + tok > b.bodyBudget <;>
    by_cases hparts : b.parts = [] <;>
    simp [ChunkBuilder.appendUnit, ChunkBuilder.flush, h0, hj, hover, hparts,
      hinv]

/-- Every chunk emitted by one `appendUnit` call is within budget or is the
dedicated jumbo chunk for the appended unit. -/
theorem appendUnit_chunk_bound (b : ChunkBuilder) (t : List Char) (tok : Int)
    (h : b.tokens ≤ b.bodyBudget) :
    ∀ c ∈ (b.appendUnit t tok).1,
      c.tokens ≤ b.frontTokens + b.bodyBudget ∨
      (b.bodyBudget < tok ∧ c.text = b.frontBlock ++ t ∧
        c.tokens = b.frontTokens + tok) := by
  intro c hc
  by_cases h0 : tok ≤ 0 <;> by_cases hj : tok > b.bodyBudget <;>
    by_cases hover : b.tokens + tok > b.bodyBudget <;>
    by_cases hparts : b.parts = [] <;>
    simp [ChunkBuilder.appendUnit, ChunkBuilder.flush, h0, hj, hover, hparts] at hc <;>
    first
    | (rcases hc with rfl | rfl
       · left; simpa using h
       · right; exact ⟨by omega, rfl, rfl⟩)
    | (subst hc; right; exact ⟨by omega, rfl, rfl⟩)
    | (subst hc; left; simpa using h)
    | simp at hc

/-- Invariant of the unit loop: the accumulator stays within budget and every
emitted chunk is within budget or a dedicated jumbo chunk of some unit. -/
theorem processUnits_inv (us : List ChunkUnit) :
    ∀ b : ChunkBuilder, 0 ≤ b.bodyBudget → b.tokens ≤ b.bodyBudget →
      (b.parts = [] → b.tokens = 0) →
      ((processUnits b us).2.tokens ≤ b.bodyBudget ∧
        ((processUnits b us).2.parts = [] → (processUnits b us).2.tokens = 0)) ∧
      ∀ c ∈ (processUnits b us).1,
        c.tokens ≤ b.frontTokens + b.bodyBudget ∨
        ∃ u ∈ us, b.bodyBudget < u.tokens ∧ c.text = b.frontBlock ++ u.text ∧
          c.tokens = b.frontTokens + u.tokens := by
  induction us with
  | nil =>
    intro b hbb h hemp
    refine ⟨⟨by simpa [processUnits] using h, by simpa [processUnits] using hemp⟩, ?_⟩
    simp [processUnits]
  | cons u us ih =>
    intro b hbb h hemp
    rw [processUnits_cons]
    have hcfg := appendUnit_config b u.text u.tokens
    have htok := appendUnit_tokens_le b u.text u.tokens hbb h hemp
    have hemp' := appendUnit_empty_inv b u.text u.tokens hemp
    have hch := appendUnit_chunk_bound b u.text u.tokens h
    have hih := ih (b.appendUnit u.text u.tokens).2
      (by rw [hcfg.2.2.2.2]; exact hbb) (by rw [hcfg.2.2.2.2]; exact htok) hemp'
    constructor
    · have h1 := hih.1.1
      rw [hcfg.2.2.2.2] at h1
      exact ⟨h1, hih.1.2⟩
    · intro c hc
      simp only [List.mem_append] at hc
      rcases hc with hc | hc
      · rcases hch c hc with hle | ⟨hlt, htext, htok'⟩
        · exact Or.inl hle
        · exact Or.inr ⟨u, by simp, hlt, htext, htok'⟩
      · rcases hih.2 c hc with hle | ⟨v, hv, hlt, htext, htok'⟩
        · rw [hcfg.2.2.2.1, hcfg.2.2.2.2] at hle
          exact Or.inl hle
        · rw [hcfg.2.2.2.2] at hlt
          rw [hcfg.2.2.1] at htext
          rw [hcfg.2.2.2.1] at htok'
          exact Or.inr ⟨v, by simp [hv], hlt, htext, htok'⟩

/-- The final flush emits a chunk within budget whenever the accumulator is. -/
theorem flush_chunk_bound (b : ChunkBuilder) (h : b.tokens ≤ b.bodyBudget) :
    ∀ c ∈ (b.flush).1.toList, c.tokens ≤ b.frontTokens + b.bodyBudget := by
  intro c hc
  by_cases hparts : b.parts = [] <;>
    simp [ChunkBuilder.flush, hparts] at hc
  subst hc
  simpa using h

/-- C2: packing a sequence of units from a fresh builder and then flushing,
the running body token count never exceeds the body budget (after any prefix
of appends), and every chunk that is not a dedicated jumbo chunk of some
oversized unit satisfies tokens ≤ frontTokens + bodyBudget. -/
theorem builder_budget_conformance (fp ft : String) (fb : List Char)
    (frontTokens bodyBudget : Int) (us : List ChunkUnit)
    (hbb : 0 ≤ bodyBudget) :
    (∀ us₁ us₂, us = us₁ ++ us₂ →
        (processUnits (newChunkBuilder fp ft fb frontTokens bodyBudget) us₁).2.tokens
          ≤ bodyBudget)
    ∧ ∀ c ∈ (processUnits (newChunkBuilder fp ft fb frontTokens bodyBudget) us).1
          ++ ((processUnits (newChunkBuilder fp ft fb frontTokens bodyBudget) us).2.flush).1.toList,
        c.tokens ≤ frontTokens + bodyBudget ∨
        ∃ u ∈ us, bodyBudget < u.tokens ∧ c.text = fb ++ u.text ∧
          c.tokens = frontTokens + u.tokens := by
  have hb0 : (newChunkBuilder fp ft fb frontTokens bodyBudget).bodyBudget = bodyBudget := rfl
  have ht0 : (newChunkBuilder fp ft fb frontTokens bodyBudget).tokens = 0 := rfl
  constructor
  · intro us₁ us₂ _
    have := (processUnits_inv us₁ (newChunkBuilder fp ft fb frontTokens bodyBudget)
      (by rw [hb0]; exact hbb) (by rw [ht0, hb0]; exact hbb) (fun _ => ht0)).1.1
    rwa [hb0] at this
  · intro c hc
    have hinv := processUnits_inv us (newChunkBuilder fp ft fb frontTokens bodyBudget)
      (by rw [hb0]; exact hbb) (by rw [ht0, hb0]; exact hbb) (fun _ => ht0)
    have hcfg := processUnits_config us (newChunkBuilder fp ft fb frontTokens bodyBudget)
    simp only [List.mem_append] at hc
    rcases hc with hc | hc
    · rcases hinv.2 c hc with hle | ⟨v, hv, hlt, htext, htok'⟩
      · exact Or.inl hle
      · exact Or.inr ⟨v, hv, hlt, htext, htok'⟩
    · left
      have hfl := flush_chunk_bound (processUnits (newChunkBuilder fp ft fb frontTokens bodyBudget) us).2
        (by rw [hcfg.2.2.2.2, hb0]; exact hinv.1.1) c hc
      rwa [hcfg.2.2.2.1, hcfg.2.2.2.2] at hfl

/-- Witness for `builder_budget_conformance` at a concrete unit sequence. -/
theorem builder_budget_conformance_witness :
    (0 : Int) ≤ 5 ∧
    ((∀ us₁ us₂,
        [ChunkUnit.mk ['a'] 3, ChunkUnit.mk ['b'] 4, ChunkUnit.mk ['c'] 9]
          = us₁ ++ us₂ →
        (processUnits (newChunkBuilder "f.md" "T" ['h'] 2 5) us₁).2.tokens ≤ 5)
    ∧ ∀ c ∈ (processUnits (newChunkBuilder "f.md" "T" ['h'] 2 5)
            [ChunkUnit.mk ['a'] 3, ChunkUnit.mk ['b'] 4, ChunkUnit.mk ['c'] 9]).1
          ++ ((processUnits (newChunkBuilder "f.md" "T" ['h'] 2 5)
            [ChunkUnit.mk ['a'] 3, ChunkUnit.mk ['b'] 4, ChunkUnit.mk ['c'] 9]).2.flush).1.toList,
        c.tokens ≤ 2 + 5 ∨
        ∃ u ∈ [ChunkUnit.mk ['a'] 3, ChunkUnit.mk ['b'] 4, ChunkUnit.mk ['c'] 9],
          (5:Int) < u.tokens ∧ c.text = ['h'] ++ u.text ∧
          c.tokens = 2 + u.tokens) :=
  ⟨by norm_num,
   builder_budget_conformance "f.md" "T" ['h'] 2 5
     [ChunkUnit.mk ['a'] 3, ChunkUnit.mk ['b'] 4, ChunkUnit.mk ['c'] 9]
     (by norm_num)⟩

/-- C3: appending a unit whose token count strictly exceeds the body budget
first flushes the accumulator (only when non-empty), then emits a dedicated
chunk of exactly header + unit text with header + unit tokens; afterwards the
accumulator is empty and the next index advanced by the number of chunks
emitted, each emitted chunk receiving consecutive indices. -/
theorem appendUnit_jumbo (b : ChunkBuilder) (t : List Char) (tok : Int)
    (hbb : 0 ≤ b.bodyBudget) (hj : b.bodyBudget < tok)
    (hinv : b.parts = [] → b.tokens = 0) :
    (b.appendUnit t tok).1 =
      (if b.parts = [] then [] else
        [{ filePath := b.filePath, fileTitle := b.fileTitle, chunkIndex := b.index,
           text := b.frontBlock ++ b.parts.flatten,
           tokens := b.frontTokens + b.tokens }]) ++
      [{ filePath := b.filePath, fileTitle := b.fileTitle,
         chunkIndex := if b.parts = [] then b.index else b.index + 1,
         text := b.frontBlock ++ t, tokens := b.frontTokens + tok }]
    ∧ (b.appendUnit t tok).2.parts = []
    ∧ (b.appendUnit t tok).2.tokens = 0
    ∧ (b.appendUnit t tok).2.index = b.index + ((b.appendUnit t tok).1).length := by
  have h0 : ¬ tok ≤ 0 := by omega
  have hj' : tok > b.bodyBudget := hj
  by_cases hparts : b.parts = [] <;>
    simp [ChunkBuilder.appendUnit, ChunkBuilder.flush, h0, hj', hparts] <;>
    first
    | omega
    | (have h9 := hinv hparts; omega)
    | exact hinv hparts

/-- Witness for `appendUnit_jumbo` at a concrete builder state. -/
theorem appendUnit_jumbo_witness :
    ((0 : Int) ≤ 5 ∧ (5 : Int) < 9 ∧
      ((ChunkBuilder.mk "f.md" "T" ['h'] 2 5 [['a']] 3 4).parts = [] →
        (ChunkBuilder.mk "f.md" "T" ['h'] 2 5 [['a']] 3 4).tokens = 0)) ∧
    ((ChunkBuilder.mk "f.md" "T" ['h'] 2 5 [['a']] 3 4).appendUnit ['c'] 9).1 =
      (if (ChunkBuilder.mk "f.md" "T" ['h'] 2 5 [['a']] 3 4).parts = [] then [] else
        [{ filePath := "f.md", fileTitle := "T", chunkIndex := 4,
           text := ['h'] ++ [['a']].flatten, tokens := 2 + 3 }]) ++
      [{ filePath := "f.md", fileTitle := "T",
         chunkIndex := if (ChunkBuilder.mk "f.md" "T" ['h'] 2 5 [['a']] 3 4).parts = [] then 4 else 4 + 1,
         text := ['h'] ++ ['c'], tokens := 2 + 9 }]
    ∧ ((ChunkBuilder.mk "f.md" "T" ['h'] 2 5 [['a']] 3 4).appendUnit ['c'] 9).2.parts = []
    ∧ ((ChunkBuilder.mk "f.md" "T" ['h'] 2 5 [['a']] 3 4).appendUnit ['c'] 9).2.tokens = 0
    ∧ ((ChunkBuilder.mk "f.md" "T" ['h'] 2 5 [['a']] 3 4).appendUnit ['c'] 9).2.index =
        4 + (((ChunkBuilder.mk "f.md" "T" ['h'] 2 5 [['a']] 3 4).appendUnit ['c'] 9).1).length :=
  ⟨⟨by norm_num, by norm_num, by simp⟩,
   appendUnit_jumbo (ChunkBuilder.mk "f.md" "T" ['h'] 2 5 [['a']] 3 4) ['c'] 9
     (by norm_num) (by norm_num) (by simp)⟩

/-- The jumbo-detection loop of `RunCmd.Run`: append each chunk whose total
token count exceeds the effective budget. -/
def collectJumboChunks (chunks : List Chunk) (effBudget : Int) : List Chunk :=
  chunks.foldl (fun acc c => if c.tokens > effBudget then acc ++ [c] else acc) []

theorem collectJumboChunks_shift (effBudget : Int) :
    ∀ (chunks : List Chunk) (acc : List Chunk),
      chunks.foldl (fun a c => if c.tokens > effBudget then a ++ [c] else a) acc
        = acc ++ collectJumboChunks chunks effBudget := by
  intro chunks
  induction chunks with
  | nil => intro acc; simp [collectJumboChunks]
  | cons c cs ih =>
    intro acc
    by_cases h : c.tokens > effBudget
    · simp only [collectJumboChunks, List.foldl_cons, if_pos h]
      rw [ih, ih ([] ++ [c])]
      simp
    · simp only [collectJumboChunks, List.foldl_cons, if_neg h]
      rw [ih acc, ih ([] : List Chunk)]
      simp

/-- C9: a chunk is collected as jumbo exactly when its total token count
(header tokens included) exceeds the effective budget; chunks at or below the
threshold are never reported. -/
theorem jumbo_report_iff (chunks : List Chunk) (effBudget : Int) (c : Chunk) :
    c ∈ collectJumboChunks chunks effBudget ↔
      c ∈ chunks ∧ effBudget < c.tokens := by
  induction chunks with
  | nil => simp [collectJumboChunks]
  | cons d ds ih =>
    simp only [collectJumboChunks, List.foldl_cons]
    by_cases h : d.tokens > effBudget
    · rw [if_pos h, collectJumboChunks_shift]
      simp only [List.nil_append, List.mem_append, List.mem_singleton]
      rw [collectJumboChunks] at ih
      constructor
      · rintro (rfl | hmem)
        · exact ⟨by simp, h⟩
        · have := ih.1 hmem
          exact ⟨by simp [this.1], this.2⟩
      · rintro ⟨hmem, hlt⟩
        rcases List.mem_cons.1 hmem with rfl | hmem'
        · exact Or.inl rfl
        · exact Or.inr (ih.2 ⟨hmem', hlt⟩)
    · rw [if_neg h]
      rw [collectJumboChunks] at ih
      rw [ih]
      constructor
      · rintro ⟨hmem, hlt⟩
        exact ⟨by simp [hmem], hlt⟩
      · rintro ⟨hmem, hlt⟩
        rcases List.mem_cons.1 hmem with rfl | hmem'
        · omega
        · exact ⟨hmem', hlt⟩

/-- `section.Section`: a node of the document tree (title, heading level,
owned content, ordered children).  The parent back-pointer is represented by
the tree structure itself. -/
inductive Sec where
  | mk (title : String) (level : Nat) (content : List Char) (children : List Sec)

/-- `Title()`. -/
def Sec.title : Sec → String
  | .mk t _ _ _ => t

/-- `Level()`. -/
def Sec.level : Sec → Nat
  | .mk _ l _ _ => l

/-- `Content()`. -/
def Sec.content : Sec → List Char
  | .mk _ _ c _ => c

/-- `Children()`. -/
def Sec.children : Sec → List Sec
  | .mk _ _ _ cs => cs

/-- Number of nodes of a section tree (termination measure). -/
def Sec.size : Sec → Nat
  | .mk _ _ _ cs => 1 + (cs.attach.map fun c => c.1.size).sum
decreasing_by
  have := List.sizeOf_lt_of_mem c.2
  simp only [Sec.mk.sizeOf_spec]
  omega

theorem secSize_eq (t : String) (l : Nat) (c : List Char) (cs : List Sec) :
    Sec.size (.mk t l c cs) = 1 + (cs.map Sec.size).sum := by
  simp only [Sec.size]
  rw [List.attach_map_coe]

theorem secSize_lt_of_mem {c s : Sec} (h : c ∈ s.children) : c.size < s.size := by
  obtain ⟨t, l, cc, cs⟩ := s
  simp only [Sec.children] at h
  rw [secSize_eq]
  have : c.size ≤ (cs.map Sec.size).sum :=
    List.single_le_sum (by intro x _; positivity) _ (List.mem_map_of_mem _ h)
  omega

theorem Sec.size_pos (s : Sec) : 0 < s.size := by
  obtain ⟨t, l, c, cs⟩ := s
  rw [secSize_eq]
  omega

/-- Well-founded induction over section trees via child membership. -/
theorem secInductionOn (P : Sec → Prop)
    (step : ∀ s, (∀ c ∈ s.children, P c) → P s) : ∀ s, P s := by
  intro s
  have h : ∀ n, ∀ s : Sec, s.size ≤ n → P s := by
    intro n
    induction n with
    | zero =>
      intro s hs
      have := Sec.size_pos s
      omega
    | succ n ih =>
      intro s hs
      refine step s fun c hc => ih c ?_
      have := secSize_lt_of_mem hc
      omega
  exact h s.size s le_rfl

mutual

/-- `tokenizer.Tokenize`: recursively measure a section tree, producing a
`TokenizedSection` with the node's content token count and the subtree total
(own count plus children's subtree totals); the first counter error aborts. -/
def tokenize {ε : Type} (counter : List Char → Except ε Int) :
    Sec → Except ε TokenizedSection
  | .mk _ _ content children =>
    match counter content with
    | .error e => .error e
    | .ok ct =>
      match tokenizeChildren counter children with
      | .error e => .error e
      | .ok tkids =>
        .ok (.mk content ct (ct + (tkids.map TokenizedSection.subtreeTokens).sum) tkids)
termination_by s => ((Sec.size s, 0) : Nat ×ₗ Nat)
decreasing_by
  apply Prod.Lex.left
  rw [secSize_eq]
  omega

/-- The child loop of `Tokenize`: visit children left to right, aborting on
the first error. -/
def tokenizeChildren {ε : Type} (counter : List Char → Except ε Int) :
    List Sec → Except ε (List TokenizedSection)
  | [] => .ok []
  | c :: rest =>
    match tokenize counter c with
    | .error e => .error e
    | .ok tc =>
      match tokenizeChildren counter rest with
      | .error e => .error e
      | .ok trest => .ok (tc :: trest)
termination_by cs => ((((cs.map Sec.size).sum : Nat), cs.length + 1) : Nat ×ₗ Nat)
decreasing_by
  · rcases Nat.eq_zero_or_pos ((rest.map Sec.size).sum) with h | h
    · simp only [List.map_cons, List.sum_cons, h, Nat.add_zero]
      apply Prod.Lex.right
      omega
    · apply Prod.Lex.left
      simp only [List.map_cons, List.sum_cons]
      omega
  · apply Prod.Lex.left
    simp only [List.map_cons, List.sum_cons]
    have := Sec.size_pos c
    omega

end

/-- Node-for-node structural mirroring: the tokenized tree has the same shape
as the section tree and records each node's content. -/
def secMirrors : TokenizedSection → Sec → Prop
  | .mk c _ _ tcs, .mk _ _ sc scs =>
    c = sc ∧ tcs.length = scs.length ∧
      ∀ p ∈ tcs.zip scs, secMirrors p.1 p.2
termination_by t _ => sizeOf t
decreasing_by
  have hm := (List.of_mem_zip (by assumption)).1
  have := List.sizeOf_lt_of_mem hm
  simp only [TokenizedSection.mk.sizeOf_spec]
  omega

/-- The measurement invariant, at every node of the tokenized tree:
`SubtreeTokens = ContentTokens + Σ children.SubtreeTokens` and
`SubtreeTokens ≥ ContentTokens`. -/
def tsInv : TokenizedSection → Prop
  | .mk _ ct st cs =>
    st = ct + (cs.map TokenizedSection.subtreeTokens).sum ∧ ct ≤ st ∧
      ∀ c ∈ cs, tsInv c
termination_by t => sizeOf t
decreasing_by
  have := List.sizeOf_lt_of_mem (by assumption)
  simp only [TokenizedSection.mk.sizeOf_spec]
  omega

/-- The child loop of `Tokenize` succeeds and mirrors when every child does. -/
theorem tokenizeChildren_ok {ε : Type} (counter : List Char → Except ε Int)
    (cs : List Sec)
    (h : ∀ c ∈ cs, ∃ t, tokenize counter c = .ok t ∧ secMirrors t c ∧
      tsInv t ∧ 0 ≤ t.subtreeTokens) :
    ∃ ts, tokenizeChildren counter cs = .ok ts ∧ ts.length = cs.length ∧
      (∀ p ∈ ts.zip cs, secMirrors p.1 p.2) ∧
      (∀ t ∈ ts, tsInv t) ∧ 0 ≤ (ts.map TokenizedSection.subtreeTokens).sum := by
  induction cs with
  | nil => exact ⟨[], by simp [tokenizeChildren], by simp, by simp, by simp, by simp⟩
  | cons c rest ih =>
    obtain ⟨t, hok, hmir, hinv, hpos⟩ := h c (by simp)
    obtain ⟨ts, hok', hlen, hmir', hinv', hpos'⟩ :=
      ih (fun d hd => h d (by simp [hd]))
    refine ⟨t :: ts, ?_, by simpa using hlen, ?_, ?_, ?_⟩
    · rw [tokenizeChildren, hok, hok']
    · intro p hp
      rcases List.mem_cons.1 (by simpa [List.zip_cons_cons] using hp) with rfl | hp'
      · exact hmir
      · exact hmir' p hp'
    · intro u hu
      rcases List.mem_cons.1 hu with rfl | hu'
      · exact hinv
      · exact hinv' u hu'
    · simp only [List.map_cons, List.sum_cons]
      omega

/-- C10: for every section tree and counter that always returns a
nonnegative count, `Tokenize` succeeds and the resulting tree mirrors the
section tree node for node, with `SubtreeTokens = ContentTokens +
Σ children.SubtreeTokens` (hence `SubtreeTokens ≥ ContentTokens`) at every
node. -/
theorem tokenize_mirrors_inv {ε : Type} (counter : List Char → Except ε Int)
    (hc : ∀ s, ∃ n, counter s = .ok n ∧ 0 ≤ n) (root : Sec) :
    ∃ t, tokenize counter root = .ok t ∧ secMirrors t root ∧ tsInv t := by
  suffices h : ∃ t, tokenize counter root = .ok t ∧ secMirrors t root ∧
      tsInv t ∧ 0 ≤ t.subtreeTokens by
    obtain ⟨t, h1, h2, h3, _⟩ := h
    exact ⟨t, h1, h2, h3⟩
  induction root using secInductionOn with
  | step s ih =>
    obtain ⟨ti, l, c, cs⟩ := s
    obtain ⟨n, hn, hn0⟩ := hc c
    obtain ⟨ts, hok, hlen, hmir, hinv, hpos⟩ := tokenizeChildren_ok counter cs
      (by simpa [Sec.children] using ih)
    refine ⟨.mk c n (n + (ts.map TokenizedSection.subtreeTokens).sum) ts, ?_, ?_, ?_, ?_⟩
    · rw [tokenize, hn, hok]
    · rw [secMirrors]
      exact ⟨rfl, hlen, hmir⟩
    · rw [tsInv]
      exact ⟨rfl, by omega, hinv⟩
    · simp only [TokenizedSection.subtreeTokens]
      omega

/-- Witness for `tokenize_mirrors_inv` with a length-based counter. -/
theorem tokenize_mirrors_inv_witness :
    (∀ s : List Char, ∃ n : Int,
        (fun t : List Char => (Except.ok (t.length : Int) : Except Unit Int)) s
          = .ok n ∧ 0 ≤ n) ∧
    ∃ t, tokenize (fun t : List Char => (Except.ok (t.length : Int) : Except Unit Int))
          (.mk "d" 0 ['x'] [.mk "h" 1 ['y', 'z'] []]) = .ok t ∧
        secMirrors t (.mk "d" 0 ['x'] [.mk "h" 1 ['y', 'z'] []]) ∧ tsInv t :=
  ⟨fun s => ⟨s.length, rfl, Int.natCast_nonneg _⟩,
   tokenize_mirrors_inv _ (fun s => ⟨s.length, rfl, Int.natCast_nonneg _⟩)
     (.mk "d" 0 ['x'] [.mk "h" 1 ['y', 'z'] []])⟩

/-- Go `int(x)` conversion from floating point: truncation toward zero.
Arithmetic on the overhead ratio is modelled exactly over `ℚ` rather than
with `float64` rounding. -/
def intTrunc (q : ℚ) : Int :=
  if 0 ≤ q then ⌊q⌋ else -⌊-q⌋

/-- The effective-budget computation of `New`:
`int(float64(chunkTokenBudget) * (1.0 - reservedOverheadRatio))`. -/
def effectiveBudget (chunkTokenBudget : Int) (reservedOverhead : ℚ) : Int :=
  intTrunc ((chunkTokenBudget : ℚ) * (1 - reservedOverhead))

/-- The validation in `New`: the token budget must be positive and the
overhead ratio must lie in `[0, 1)`; on success the chunker carries the
effective budget. -/
def newChunker (budget : Int) (reservedOverhead : ℚ) : Option Int :=
  if budget ≤ 0 then none
  else if reservedOverhead < 0 ∨ 1 ≤ reservedOverhead then none
  else some (effectiveBudget budget reservedOverhead)

/-- The body-budget step of `Push`: `bodyBudget := effectiveBudget -
frontTokens`; if it is not positive the document fails with a hard error and
no chunks, otherwise `chunkDocument` runs with that budget. -/
def pushChunksPhase (eff frontTokens : Int) (fp ftitle : String)
    (fb : List Char) (root : TokenizedSection) : Option (List Chunk) :=
  let bodyBudget := eff - frontTokens
  if bodyBudget ≤ 0 then none
  else some (chunkDocument ⟨fp, ftitle, fb, frontTokens, bodyBudget, root⟩)

/-- C8: for a chunker built with budget `B > 0` and overhead `0 ≤ r < 1`,
construction succeeds, the effective budget is `B * (1 - r)` truncated toward
zero, which under these hypotheses is `⌊B * (1 - r)⌋` (e.g. exactly 900 for
`B = 1000`, `r = 1/10`); in `Push`, the body budget is the effective budget
minus the header token count, and a nonpositive body budget is a hard error
producing no chunks. -/
theorem effective_budget_spec (B : Int) (r : ℚ) (hB : 0 < B) (h0 : 0 ≤ r)
    (h1 : r < 1) :
    newChunker B r = some (effectiveBudget B r)
    ∧ effectiveBudget B r = ⌊(B : ℚ) * (1 - r)⌋
    ∧ effectiveBudget 1000 (1/10) = 900
    ∧ (∀ (ft : Int) (fp ftitle : String) (fb : List Char)
          (root : TokenizedSection), effectiveBudget B r - ft ≤ 0 →
        pushChunksPhase (effectiveBudget B r) ft fp ftitle fb root = none)
    ∧ (∀ (ft : Int) (fp ftitle : String) (fb : List Char)
          (root : TokenizedSection), 0 < effectiveBudget B r - ft →
        pushChunksPhase (effectiveBudget B r) ft fp ftitle fb root =
          some (chunkDocument ⟨fp, ftitle, fb, ft, effectiveBudget B r - ft, root⟩)) := by
  have hnonneg : 0 ≤ (B : ℚ) * (1 - r) := by
    have hb : (0 : ℚ) ≤ (B : ℚ) := by exact_mod_cast hB.le
    have hr : (0 : ℚ) ≤ 1 - r := by linarith
    positivity
  refine ⟨?_, ?_, ?_, ?_, ?_⟩
  · unfold newChunker
    rw [if_neg (by omega), if_neg (by push_neg; constructor <;> linarith)]
  · unfold effectiveBudget intTrunc
    rw [if_pos hnonneg]
  · unfold effectiveBudget intTrunc
    norm_num
  · intro ft fp ftitle fb root h
    unfold pushChunksPhase
    simp only
    rw [if_pos h]
  · intro ft fp ftitle fb root h
    unfold pushChunksPhase
    simp only
    rw [if_neg (by omega)]

/-- Witness for `effective_budget_spec` at budget 1000, overhead 1/10. -/
theorem effective_budget_spec_witness :
    ((0 : Int) < 1000 ∧ (0 : ℚ) ≤ 1/10 ∧ (1/10 : ℚ) < 1) ∧
    (newChunker 1000 (1/10) = some (effectiveBudget 1000 (1/10))
    ∧ effectiveBudget 1000 (1/10) = ⌊((1000 : Int) : ℚ) * (1 - 1/10)⌋
    ∧ effectiveBudget 1000 (1/10) = 900
    ∧ (∀ (ft : Int) (fp ftitle : String) (fb : List Char)
          (root : TokenizedSection), effectiveBudget 1000 (1/10) - ft ≤ 0 →
        pushChunksPhase (effectiveBudget 1000 (1/10)) ft fp ftitle fb root = none)
    ∧ (∀ (ft : Int) (fp ftitle : String) (fb : List Char)
          (root : TokenizedSection), 0 < effectiveBudget 1000 (1/10) - ft →
        pushChunksPhase (effectiveBudget 1000 (1/10)) ft fp ftitle fb root =
          some (chunkDocument ⟨fp, ftitle, fb, ft,
            effectiveBudget 1000 (1/10) - ft, root⟩))) :=
  ⟨⟨by norm_num, by norm_num, by norm_num⟩,
   effective_budget_spec 1000 (1/10) (by norm_num) (by norm_num) (by norm_num)⟩

/-- A heading occurrence as extracted by `extractHeadings`: the byte span
`[start, stop)` of the heading line, nesting level, and title. -/
structure HeadingSpan where
  start : Nat
  stop : Nat
  level : Nat
  title : String

/-- A stack frame of the fold: the section currently under construction.
Go holds a `*Section` whose children are attached at `CreateChild` time; in
the functional model a child is recorded in its parent's frame when the spine
above the parent is popped, which is observationally identical because popped
sections are never mutated afterwards. -/
structure Frame where
  title : String
  level : Nat
  content : List Char
  children : List Sec

/-- Close a frame into a finished section node. -/
def closeFrame (f : Frame) : Sec :=
  .mk f.title f.level f.content f.children

/-- `spliceText`: clamped substring extraction.  Go also clamps a negative
`start` to 0, which is vacuous for `Nat` offsets.  Returns the extracted text
and the advanced position (the original `start` when the range is empty). -/
def spliceText (src : List Char) (start stop : Nat) : List Char × Nat :=
  let stop := min stop src.length
  if stop ≤ start then ([], start)
  else ((src.drop start).take (stop - start), stop)

/-- `Section.AppendContent` on the top-of-stack section. -/
def appendContentTop (stack : List Frame) (c : List Char) : List Frame :=
  match stack with
  | [] => []
  | f :: rest => { f with content := f.content ++ c } :: rest

/-- `parentForLevel`: scan the stack from the top while the level is `≥`
target; returns how many frames must be popped to reach the parent, or `none`
when every frame has level `≥` target (Go's "no valid parent section").
Go returns the parent's index from the bottom; the pop count from the top
carries the same information. -/
def parentForLevel (target : Nat) : List Frame → Option Nat
  | [] => none
  | f :: rest =>
    if target ≤ f.level then (parentForLevel target rest).map (· + 1)
    else some 0

/-- Pop the top frame, recording its closed section as the last child of the
frame below (Go's `w.stack = w.stack[:pi+1]`; the child was already linked by
`CreateChild`). -/
def attachTop : List Frame → List Frame
  | f :: q :: rest => { q with children := q.children ++ [closeFrame f] } :: rest
  | st => st

/-- Pop `n` frames. -/
def popN : Nat → List Frame → List Frame
  | 0, st => st
  | n + 1, st => popN n (attachTop st)

/-- The stack truncation step of `fold`: find the parent for the new heading
level and drop the frames above it. -/
def popToParent (target : Nat) (st : List Frame) : Option (List Frame) :=
  match parentForLevel target st with
  | none => none
  | some n => some (popN n st)

/-- One iteration of the heading loop in `worker.fold`: append the
pre-heading text `[cursor, start)` to the top section, pop to the parent for
the heading's level, push a fresh child section, and move the cursor to the
end of the heading line. -/
def foldStep (src : List Char) (state : List Frame × Nat) (h : HeadingSpan) :
    Option (List Frame × Nat) :=
  let st1 :=
    if h.start > state.2 then
      let r := spliceText src state.2 h.start
      (appendContentTop state.1 r.1, r.2)
    else state
  match popToParent h.level st1.1 with
  | none => none
  | some stack' =>
    some (({ title := h.title, level := h.level, content := [], children := [] } : Frame)
      :: stack', h.stop)

/-- Collapse the remaining spine into the finished tree, folding each frame
into its parent from the top down. -/
def collapseInto (s : Sec) : List Frame → Sec
  | [] => s
  | q :: rest => collapseInto (closeFrame { q with children := q.children ++ [s] }) rest

/-- Collapse a whole stack (the bottom frame is the root). -/
def collapseStack : List Frame → Sec
  | [] => .mk "" 0 [] []
  | f :: rest => collapseInto (closeFrame f) rest

/-- `worker.fold`: build the section tree from the heading spans, then append
the trailing text `[cursor, len)` to the top section. -/
def fold (docTitle : String) (src : List Char) (spans : List HeadingSpan) :
    Option Sec :=
  match spans.foldlM (foldStep src)
      (([({ title := docTitle, level := 0, content := [], children := [] } : Frame)],
        (0 : Nat))) with
  | none => none
  | some (stack, cursor) =>
    let stack :=
      if cursor < src.length then
        appendContentTop stack (spliceText src cursor src.length).1
      else stack
    some (collapseStack stack)

/-- Pre-order concatenation of all node contents (parent before children,
children left to right). -/
def Sec.preContents : Sec → List Char
  | .mk _ _ c cs => c ++ (cs.attach.map fun x => x.1.preContents).flatten
decreasing_by
  have := List.sizeOf_lt_of_mem x.2
  simp only [Sec.mk.sizeOf_spec]
  omega

theorem Sec.preContents_eq (t : String) (l : Nat) (c : List Char) (cs : List Sec) :
    Sec.preContents (.mk t l c cs) = c ++ (cs.map Sec.preContents).flatten := by
  simp only [Sec.preContents]
  rw [List.attach_map_coe]

/-- Pre-order listing of `(title, level)` for every node. -/
def Sec.preNodes : Sec → List (String × Nat)
  | .mk t l _ cs => (t, l) :: (cs.attach.map fun x => x.1.preNodes).flatten
decreasing_by
  have := List.sizeOf_lt_of_mem x.2
  simp only [Sec.mk.sizeOf_spec]
  omega

theorem Sec.preNodes_eq (t : String) (l : Nat) (c : List Char) (cs : List Sec) :
    Sec.preNodes (.mk t l c cs) = (t, l) :: (cs.map Sec.preNodes).flatten := by
  simp only [Sec.preNodes]
  rw [List.attach_map_coe]

/-- The tree level invariant: every child's level is strictly greater than
its parent's, recursively. -/
def Sec.levelsOK : Sec → Prop
  | .mk _ l _ cs => ∀ c ∈ cs, l < c.level ∧ Sec.levelsOK c
termination_by s => sizeOf s
decreasing_by
  have := List.sizeOf_lt_of_mem (by assumption)
  simp only [Sec.mk.sizeOf_spec]
  omega

/-- A frame is well formed when its recorded children already satisfy the
level invariant below it. -/
def frameOK (f : Frame) : Prop :=
  ∀ c ∈ f.children, f.level < c.level ∧ Sec.levelsOK c

theorem levelsOK_closeFrame (f : Frame) : Sec.levelsOK (closeFrame f) ↔ frameOK f := by
  rw [closeFrame, Sec.levelsOK]
  rfl

/-- Frames strictly below a given level, with strictly decreasing levels down
the stack and well-formed recorded children. -/
def stackBelow (l : Nat) : List Frame → Prop
  | [] => True
  | q :: rest => frameOK q ∧ q.level < l ∧ stackBelow q.level rest

/-- Well-formed fold stack: nonempty, strictly decreasing levels downward,
all recorded children well formed. -/
def stackOK : List Frame → Prop
  | [] => False
  | f :: rest => frameOK f ∧ stackBelow f.level rest

/-- The bottom frame of the stack is the synthetic root of level 0. -/
def lastLevelZero : List Frame → Prop
  | [] => False
  | [f] => f.level = 0
  | _ :: rest => lastLevelZero rest

/-- The top frame has no recorded children yet. -/
def topChildless : List Frame → Prop
  | [] => True
  | f :: _ => f.children = []

/-- The pre-order contents of the tree the stack will collapse to. -/
def spineCtx : List Frame → List Char
  | [] => []
  | f :: rest => spineCtx rest ++ f.content ++ (f.children.map Sec.preContents).flatten

/-- The pre-order `(title, level)` nodes of the tree the stack will collapse
to. -/
def spineNodes : List Frame → List (String × Nat)
  | [] => []
  | f :: rest =>
    spineNodes rest ++ [(f.title, f.level)] ++ (f.children.map Sec.preNodes).flatten

theorem collapseInto_preContents :
    ∀ (st : List Frame) (s : Sec),
      (collapseInto s st).preContents = spineCtx st ++ s.preContents := by
  intro st
  induction st with
  | nil => intro s; simp [collapseInto, spineCtx]
  | cons q rest ih =>
    intro s
    rw [collapseInto, ih, closeFrame, Sec.preContents_eq, spineCtx]
    simp

theorem collapseStack_preContents (st : List Frame) :
    (collapseStack st).preContents = spineCtx st := by
  cases st with
  | nil => simp [collapseStack, spineCtx, Sec.preContents_eq]
  | cons f rest =>
    rw [collapseStack, collapseInto_preContents, closeFrame, Sec.preContents_eq, spineCtx]
    simp

theorem collapseInto_preNodes :
    ∀ (st : List Frame) (s : Sec),
      (collapseInto s st).preNodes = spineNodes st ++ s.preNodes := by
  intro st
  induction st with
  | nil => intro s; simp [collapseInto, spineNodes]
  | cons q rest ih =>
    intro s
    rw [collapseInto, ih, closeFrame, Sec.preNodes_eq, spineNodes]
    simp

theorem collapseStack_preNodes (st : List Frame) (h : st ≠ []) :
    (collapseStack st).preNodes = spineNodes st := by
  cases st with
  | nil => exact absurd rfl h
  | cons f rest =>
    rw [collapseStack, collapseInto_preNodes, closeFrame, Sec.preNodes_eq, spineNodes]
    simp

theorem collapseInto_level :
    ∀ (st : List Frame) (s : Sec), st ≠ [] → lastLevelZero st →
      (collapseInto s st).level = 0 := by
  intro st
  induction st with
  | nil => intro s h; exact absurd rfl h
  | cons q rest ih =>
    intro s _ hz
    cases rest with
    | nil =>
      simp only [lastLevelZero] at hz
      simp [collapseInto, closeFrame, Sec.level, hz]
    | cons r rest' =>
      rw [collapseInto]
      exact ih _ (by simp) (by simpa [lastLevelZero] using hz)

theorem collapseStack_level (st : List Frame) (hz : lastLevelZero st) :
    (collapseStack st).level = 0 := by
  cases st with
  | nil => simp [lastLevelZero] at hz
  | cons f rest =>
    cases rest with
    | nil =>
      simp only [lastLevelZero] at hz
      simp [collapseStack, collapseInto, closeFrame, Sec.level, hz]
    | cons q rest' =>
      rw [collapseStack]
      exact collapseInto_level _ _ (by simp) (by simpa [lastLevelZero] using hz)

theorem collapseInto_levelsOK :
    ∀ (st : List Frame) (s : Sec), Sec.levelsOK s →
      (∀ f rest, st = f :: rest → stackBelow s.level st) →
      Sec.levelsOK (collapseInto s st) := by
  intro st
  induction st with
  | nil => intro s hs _; simpa [collapseInto] using hs
  | cons q rest ih =>
    intro s hs hb
    obtain ⟨hq, hql, hrest⟩ := hb q rest rfl
    rw [collapseInto]
    refine ih _ ?_ ?_
    · rw [levelsOK_closeFrame]
      intro c hc
      simp only [List.mem_append, List.mem_singleton] at hc
      rcases hc with hc | rfl
      · exact hq c hc
      · exact ⟨hql, hs⟩
    · intro f rest' heq
      subst heq
      simpa using hrest

theorem collapseStack_levelsOK (st : List Frame) (h : stackOK st) :
    Sec.levelsOK (collapseStack st) := by
  cases st with
  | nil => simp [stackOK] at h
  | cons f rest =>
    obtain ⟨hf, hb⟩ := h
    rw [collapseStack]
    refine collapseInto_levelsOK rest (closeFrame f) ((levelsOK_closeFrame f).2 hf) ?_
    intro q rest' heq
    subst heq
    simpa [closeFrame, Sec.level] using hb

theorem parentForLevel_cons (target : Nat) (g : Frame) (rest : List Frame) :
    parentForLevel target (g :: rest) =
      if target ≤ g.level then (parentForLevel target rest).map (· + 1)
      else some 0 := by
  rw [parentForLevel]

theorem popToParent_pop (target : Nat) (f q : Frame) (rest : List Frame)
    (h : target ≤ f.level) :
    popToParent target (f :: q :: rest) =
      popToParent target ({ q with children := q.children ++ [closeFrame f] } :: rest) := by
  have heq : parentForLevel target
        ({ q with children := q.children ++ [closeFrame f] } :: rest)
      = parentForLevel target (q :: rest) := by
    rw [parentForLevel_cons, parentForLevel_cons]
  unfold popToParent
  rw [heq, parentForLevel_cons, if_pos h]
  cases hp : parentForLevel target (q :: rest) with
  | none => simp
  | some m => simp [popN, attachTop]

theorem popToParent_stay (target : Nat) (f : Frame) (rest : List Frame)
    (h : ¬ target ≤ f.level) :
    popToParent target (f :: rest) = some (f :: rest) := by
  unfold popToParent
  rw [parentForLevel, if_neg h]
  rfl

theorem lastLevelZero_cons_congr (q q' : Frame) (rest : List Frame)
    (h : q.level = q'.level) :
    lastLevelZero (q :: rest) ↔ lastLevelZero (q' :: rest) := by
  cases rest with
  | nil => simp [lastLevelZero, h]
  | cons r rest' => simp [lastLevelZero]

theorem spineCtx_attach (f q : Frame) (rest : List Frame) :
    spineCtx ({ q with children := q.children ++ [closeFrame f] } :: rest)
      = spineCtx (f :: q :: rest) := by
  simp only [spineCtx, closeFrame, List.map_append, List.flatten_append,
    Sec.preContents_eq, List.map_cons, List.map_nil, List.flatten_cons,
    List.flatten_nil]
  simp

theorem spineNodes_attach (f q : Frame) (rest : List Frame) :
    spineNodes ({ q with children := q.children ++ [closeFrame f] } :: rest)
      = spineNodes (f :: q :: rest) := by
  simp only [spineNodes, closeFrame, List.map_append, List.flatten_append,
    Sec.preNodes_eq, List.map_cons, List.map_nil, List.flatten_cons,
    List.flatten_nil]
  simp

/-- `popToParent` succeeds on a well-formed stack whose root has level 0 and
target ≥ 1, preserving the collapsed tree, leaving a well-formed stack whose
top level is strictly below the target. -/
theorem popToParent_spec (target : Nat) (ht : 1 ≤ target) :
    ∀ (n : Nat) (st : List Frame), st.length ≤ n → stackOK st → lastLevelZero st →
      ∃ f rest, popToParent target st = some (f :: rest) ∧ f.level < target ∧
        stackOK (f :: rest) ∧ lastLevelZero (f :: rest) ∧
        spineCtx (f :: rest) = spineCtx st ∧ spineNodes (f :: rest) = spineNodes st := by
  intro n
  induction n with
  | zero =>
    intro st hlen hok _
    cases st with
    | nil => simp [stackOK] at hok
    | cons f rest => simp at hlen
  | succ n ih =>
    intro st hlen hok hz
    cases st with
    | nil => simp [stackOK] at hok
    | cons f rest =>
      by_cases hf : target ≤ f.level
      · cases rest with
        | nil =>
          simp only [lastLevelZero] at hz
          omega
        | cons q rest' =>
          obtain ⟨hfok, hqok, hql, hb⟩ := hok
          have hok' : stackOK ({ q with children := q.children ++ [closeFrame f] } :: rest') := by
            refine ⟨?_, hb⟩
            intro c hc
            simp only [List.mem_append, List.mem_singleton] at hc
            rcases hc with hc | rfl
            · exact hqok c hc
            · exact ⟨hql, (levelsOK_closeFrame f).2 hfok⟩
          have hz' : lastLevelZero ({ q with children := q.children ++ [closeFrame f] } :: rest') := by
            refine (lastLevelZero_cons_congr q
              ({ q with children := q.children ++ [closeFrame f] }) rest' rfl).mp ?_
            simpa [lastLevelZero] using hz
          obtain ⟨g, rest'', hpop, hgl, hok'', hz'', hctx, hnodes⟩ :=
            ih _ (by simpa using Nat.le_of_succ_le_succ hlen) hok' hz'
          refine ⟨g, rest'', ?_, hgl, hok'', hz'', ?_, ?_⟩
          · rw [popToParent_pop target f q rest' hf]
            exact hpop
          · rw [hctx, spineCtx_attach]
          · rw [hnodes, spineNodes_attach]
      · exact ⟨f, rest, popToParent_stay target f rest hf, by omega, hok, hz, rfl, rfl⟩

theorem appendContentTop_spineNodes (st : List Frame) (c : List Char) :
    spineNodes (appendContentTop st c) = spineNodes st := by
  cases st with
  | nil => rfl
  | cons f rest => simp [appendContentTop, spineNodes]

theorem appendContentTop_spineCtx (f : Frame) (rest : List Frame) (c : List Char)
    (h : f.children = []) :
    spineCtx (appendContentTop (f :: rest) c) = spineCtx (f :: rest) ++ c := by
  simp [appendContentTop, spineCtx, h]

theorem appendContentTop_stackOK (st : List Frame) (c : List Char)
    (h : stackOK st) : stackOK (appendContentTop st c) := by
  cases st with
  | nil => exact h
  | cons f rest =>
    obtain ⟨hf, hb⟩ := h
    exact ⟨hf, hb⟩

theorem appendContentTop_lastLevelZero (st : List Frame) (c : List Char)
    (h : lastLevelZero st) : lastLevelZero (appendContentTop st c) := by
  cases st with
  | nil => exact h
  | cons f rest =>
    cases rest with
    | nil => simpa [appendContentTop, lastLevelZero] using h
    | cons q rest' => simpa [appendContentTop, lastLevelZero] using h

theorem appendContentTop_topChildless (st : List Frame) (c : List Char)
    (h : topChildless st) : topChildless (appendContentTop st c) := by
  cases st with
  | nil => trivial
  | cons f rest => simpa [appendContentTop, topChildless] using h

/-- Claim-side description of the fold's content splicing: the document body
with each heading's `[start, stop)` marker line removed, scanning from a
cursor. -/
def stripHeadings (src : List Char) : Nat → List HeadingSpan → List Char
  | cursor, [] => src.drop cursor
  | cursor, h :: rest =>
    (src.drop cursor).take (h.start - cursor) ++ stripHeadings src h.stop rest

/-- Well-formed heading spans: in document order, non-overlapping, within the
body, with heading levels ≥ 1. -/
def spansWF (len : Nat) : Nat → List HeadingSpan → Prop
  | _, [] => True
  | cursor, h :: rest =>
    cursor ≤ h.start ∧ h.start ≤ h.stop ∧ h.stop ≤ len ∧ 1 ≤ h.level ∧
      spansWF len h.stop rest

theorem spliceText_eq (src : List Char) (start stop : Nat)
    (hs : stop ≤ src.length) (hlt : start < stop) :
    spliceText src start stop = ((src.drop start).take (stop - start), stop) := by
  simp only [spliceText]
  rw [min_eq_left hs, if_neg (by omega : ¬ stop ≤ start)]

/-- One `foldStep` on a well-formed stack: the new stack after the pop/push,
together with its effect on nodes and contents. -/
theorem foldStep_spec (src : List Char) (stack : List Frame) (cursor : Nat)
    (h : HeadingSpan) (hok : stackOK stack) (hz : lastLevelZero stack)
    (hlev : 1 ≤ h.level) :
    ∃ f' rest',
      foldStep src (stack, cursor) h =
        some ((⟨h.title, h.level, [], []⟩ : Frame) :: f' :: rest', h.stop) ∧
      stackOK ((⟨h.title, h.level, [], []⟩ : Frame) :: f' :: rest') ∧
      lastLevelZero ((⟨h.title, h.level, [], []⟩ : Frame) :: f' :: rest') ∧
      spineNodes ((⟨h.title, h.level, [], []⟩ : Frame) :: f' :: rest')
        = spineNodes stack ++ [(h.title, h.level)] ∧
      (topChildless stack →
        spineCtx ((⟨h.title, h.level, [], []⟩ : Frame) :: f' :: rest')
          = spineCtx stack ++
            (if h.start > cursor then (spliceText src cursor h.start).1 else [])) := by
  have hsa : stackOK (if h.start > cursor then
        (appendContentTop stack (spliceText src cursor h.start).1,
          (spliceText src cursor h.start).2)
      else (stack, cursor)).1 := by
    split
    · exact appendContentTop_stackOK stack _ hok
    · exact hok
  have hza : lastLevelZero (if h.start > cursor then
        (appendContentTop stack (spliceText src cursor h.start).1,
          (spliceText src cursor h.start).2)
      else (stack, cursor)).1 := by
    split
    · exact appendContentTop_lastLevelZero stack _ hz
    · exact hz
  obtain ⟨f', rest', hpop, hfl, hok', hz', hctx', hnodes'⟩ :=
    popToParent_spec h.level hlev
      ((if h.start > cursor then
          (appendContentTop stack (spliceText src cursor h.start).1,
            (spliceText src cursor h.start).2)
        else (stack, cursor)).1).length _ le_rfl hsa hza
  refine ⟨f', rest', ?_, ?_, ?_, ?_, ?_⟩
  · simp only [foldStep]
    rw [hpop]
  · exact ⟨by intro c hc; simp at hc, hok'.1, hfl, hok'.2⟩
  · simpa [lastLevelZero] using hz'
  · rw [spineNodes, hnodes']
    split
    · rw [appendContentTop_spineNodes]
      simp [spineNodes]
    · simp [spineNodes]
  · intro htc
    rw [spineCtx, hctx']
    split
    · obtain ⟨g, grest, rfl⟩ : ∃ g grest, stack = g :: grest := by
        cases stack with
        | nil => simp [stackOK] at hok
        | cons g grest => exact ⟨g, grest, rfl⟩
      rw [appendContentTop_spineCtx g grest _ htc]
      simp
    · simp

/-- The heading loop of `fold` preserves stack well-formedness and appends
one `(title, level)` node per span, in order. -/
theorem foldLoop_nodes (src : List Char) :
    ∀ (spans : List HeadingSpan) (stack : List Frame) (cursor : Nat),
      stackOK stack → lastLevelZero stack → (∀ h ∈ spans, 1 ≤ h.level) →
      ∃ stack' cursor',
        List.foldlM (foldStep src) ((stack, cursor) : List Frame × Nat) spans
          = some (stack', cursor') ∧
        stackOK stack' ∧ lastLevelZero stack' ∧
        spineNodes stack' = spineNodes stack
          ++ spans.map (fun h => (h.title, h.level)) := by
  intro spans
  induction spans with
  | nil =>
    intro stack cursor hok hz _
    exact ⟨stack, cursor, by simp [List.foldlM], hok, hz, by simp⟩
  | cons h rest ih =>
    intro stack cursor hok hz hlev
    obtain ⟨f', rest', hstep, hok1, hz1, hnodes1, _⟩ :=
      foldStep_spec src stack cursor h hok hz (hlev h (by simp))
    obtain ⟨stack', cursor', hloop, hok', hz', hnodes'⟩ :=
      ih _ h.stop hok1 hz1 (fun g hg => hlev g (by simp [hg]))
    refine ⟨stack', cursor', ?_, hok', hz', ?_⟩
    · simp only [List.foldlM, hstep, Option.bind_some]
      exact hloop
    · rw [hnodes', hnodes1]
      simp

/-- The heading loop of `fold` accumulates exactly the inter-heading gaps of
the body into the collapsed tree's pre-order contents. -/
theorem foldLoop_contents (src : List Char) :
    ∀ (spans : List HeadingSpan) (stack : List Frame) (cursor : Nat),
      stackOK stack → lastLevelZero stack → topChildless stack →
      spansWF src.length cursor spans →
      ∃ stack' cursor',
        List.foldlM (foldStep src) ((stack, cursor) : List Frame × Nat) spans
          = some (stack', cursor') ∧
        stackOK stack' ∧ topChildless stack' ∧
        spineCtx stack' ++ src.drop cursor'
          = spineCtx stack ++ stripHeadings src cursor spans := by
  intro spans
  induction spans with
  | nil =>
    intro stack cursor hok hz htc _
    exact ⟨stack, cursor, by simp [List.foldlM], hok, htc, by simp [stripHeadings]⟩
  | cons h rest ih =>
    intro stack cursor hok hz htc hwf
    obtain ⟨hc1, hc2, hc3, hc4, hwf'⟩ := hwf
    obtain ⟨f', rest', hstep, hok1, hz1, _, hctx1⟩ :=
      foldStep_spec src stack cursor h hok hz hc4
    obtain ⟨stack', cursor', hloop, hok', htc', hctx'⟩ :=
      ih _ h.stop hok1 hz1 (by simp [topChildless]) hwf'
    refine ⟨stack', cursor', ?_, hok', htc', ?_⟩
    · simp only [List.foldlM, hstep, Option.bind_some]
      exact hloop
    · rw [hctx', hctx1 htc, stripHeadings]
      have hgap : (if h.start > cursor then (spliceText src cursor h.start).1 else [])
          = (src.drop cursor).take (h.start - cursor) := by
        split
        · rw [spliceText_eq src cursor h.start (le_trans hc2 hc3) (by omega)]
        · have : h.start = cursor := by omega
          simp [this]
      rw [hgap]
      simp

theorem spineCtx_init (title : String) :
    spineCtx ([⟨title, 0, [], []⟩] : List Frame) = [] := by
  simp [spineCtx]

theorem spineNodes_init (title : String) :
    spineNodes ([⟨title, 0, [], []⟩] : List Frame) = [(title, 0)] := by
  simp [spineNodes]

/-- C5: for every body and well-formed ordered heading spans, `fold`
succeeds and the pre-order concatenation of all node contents reproduces the
body text with each heading's `[start, stop)` marker line removed. -/
theorem fold_strips_headings (title : String) (src : List Char)
    (spans : List HeadingSpan) (hwf : spansWF src.length 0 spans) :
    ∃ t, fold title src spans = some t ∧
      t.preContents = stripHeadings src 0 spans := by
  have h0ok : stackOK ([⟨title, 0, [], []⟩] : List Frame) :=
    ⟨by intro c hc; simp at hc, trivial⟩
  have h0z : lastLevelZero ([⟨title, 0, [], []⟩] : List Frame) := rfl
  have h0tc : topChildless ([⟨title, 0, [], []⟩] : List Frame) := rfl
  obtain ⟨stack', cursor', hloop, hok', htc', hctx'⟩ :=
    foldLoop_contents src spans _ 0 h0ok h0z h0tc hwf
  rw [spineCtx_init] at hctx'
  simp only [List.nil_append, List.drop_zero] at hctx'
  have hfold : fold title src spans = some (collapseStack
      (if cursor' < src.length then
        appendContentTop stack' (spliceText src cursor' src.length).1
      else stack')) := by
    unfold fold
    rw [hloop]
  refine ⟨_, hfold, ?_⟩
  rw [collapseStack_preContents]
  by_cases hcl : cursor' < src.length
  · rw [if_pos hcl]
    obtain ⟨g, grest, rfl⟩ : ∃ g grest, stack' = g :: grest := by
      cases stack' with
      | nil => simp [stackOK] at hok'
      | cons g grest => exact ⟨g, grest, rfl⟩
    rw [spliceText_eq src cursor' src.length le_rfl hcl]
    rw [appendContentTop_spineCtx g grest _ htc']
    rw [← hctx']
    congr 1
    exact List.take_of_length_le (by simp)
  · rw [if_neg hcl]
    rw [← hctx']
    have : src.drop cursor' = [] := List.drop_eq_nil_of_le (by omega)
    simp [this]

/-- Witness for `fold_strips_headings` at a concrete document. -/
theorem fold_strips_headings_witness :
    spansWF (['a', 'b', 'H', 'c', 'd'] : List Char).length 0
        [HeadingSpan.mk 2 3 1 "T"] ∧
    ∃ t, fold "D" ['a', 'b', 'H', 'c', 'd'] [HeadingSpan.mk 2 3 1 "T"] = some t ∧
      t.preContents = stripHeadings ['a', 'b', 'H', 'c', 'd'] 0
        [HeadingSpan.mk 2 3 1 "T"] :=
  ⟨by simp [spansWF],
   fold_strips_headings "D" ['a', 'b', 'H', 'c', 'd'] [HeadingSpan.mk 2 3 1 "T"]
     (by simp [spansWF])⟩

/-- C7: for every body and heading spans with levels ≥ 1, `fold` succeeds,
every child's level in the resulting tree is strictly greater than its
parent's, the root has level 0, and the pre-order node listing is the root
followed by the headings in document order (so children appear in document
order). -/
theorem fold_level_invariant (title : String) (src : List Char)
    (spans : List HeadingSpan) (hlev : ∀ h ∈ spans, 1 ≤ h.level) :
    ∃ t, fold title src spans = some t ∧ Sec.levelsOK t ∧ t.level = 0 ∧
      t.preNodes = (title, 0) :: spans.map (fun h => (h.title, h.level)) := by
  have h0ok : stackOK ([⟨title, 0, [], []⟩] : List Frame) :=
    ⟨by intro c hc; simp at hc, trivial⟩
  have h0z : lastLevelZero ([⟨title, 0, [], []⟩] : List Frame) := rfl
  obtain ⟨stack', cursor', hloop, hok', hz', hnodes'⟩ :=
    foldLoop_nodes src spans _ 0 h0ok h0z hlev
  rw [spineNodes_init] at hnodes'
  have hfold : fold title src spans = some (collapseStack
      (if cursor' < src.length then
        appendContentTop stack' (spliceText src cursor' src.length).1
      else stack')) := by
    unfold fold
    rw [hloop]
  have hokf : stackOK (if cursor' < src.length then
      appendContentTop stack' (spliceText src cursor' src.length).1
    else stack') := by
    split
    · exact appendContentTop_stackOK stack' _ hok'
    · exact hok'
  have hzf : lastLevelZero (if cursor' < src.length then
      appendContentTop stack' (spliceText src cursor' src.length).1
    else stack') := by
    split
    · exact appendContentTop_lastLevelZero stack' _ hz'
    · exact hz'
  have hnodesf : spineNodes (if cursor' < src.length then
      appendContentTop stack' (spliceText src cursor' src.length).1
    else stack') = spineNodes stack' := by
    split
    · exact appendContentTop_spineNodes stack' _
    · rfl
  have hne : (if cursor' < src.length then
      appendContentTop stack' (spliceText src cursor' src.length).1
    else stack') ≠ [] := by
    intro habs
    rw [habs] at hokf
    simp [stackOK] at hokf
  refine ⟨_, hfold, ?_, ?_, ?_⟩
  · exact collapseStack_levelsOK _ hokf
  · exact collapseStack_level _ hzf
  · rw [collapseStack_preNodes _ hne, hnodesf, hnodes']
    rfl

/-- Witness for `fold_level_invariant` at a concrete document. -/
theorem fold_level_invariant_witness :
    (∀ h ∈ [HeadingSpan.mk 2 3 1 "T", HeadingSpan.mk 3 4 3 "U"], 1 ≤ h.level) ∧
    ∃ t, fold "D" ['a', 'b', 'H', 'I', 'd']
        [HeadingSpan.mk 2 3 1 "T", HeadingSpan.mk 3 4 3 "U"] = some t ∧
      Sec.levelsOK t ∧ t.level = 0 ∧
      t.preNodes = ("D", 0) :: [HeadingSpan.mk 2 3 1 "T", HeadingSpan.mk 3 4 3 "U"].map
        (fun h => (h.title, h.level)) :=
  ⟨by intro h hh; fin_cases hh <;> simp,
   fold_level_invariant "D" ['a', 'b', 'H', 'I', 'd']
     [HeadingSpan.mk 2 3 1 "T", HeadingSpan.mk 3 4 3 "U"]
     (by intro h hh; fin_cases hh <;> simp)⟩

/-- C6: a document whose heading sequence is H1 then H3 then H2 folds with
the H3 section directly under the H1 section and the H2 section as a later
sibling of H3 under H1 (not a descendant of H3), for any titles, body, and
span positions. -/
theorem fold_skipped_level (docTitle t1 t2 t3 : String) (src : List Char)
    (s1 e1 s2 e2 s3 e3 : Nat) :
    ∃ c0 c1 c2 c3 : List Char,
      fold docTitle src
          [⟨s1, e1, 1, t1⟩, ⟨s2, e2, 3, t2⟩, ⟨s3, e3, 2, t3⟩]
        = some (.mk docTitle 0 c0
            [.mk t1 1 c1 [.mk t2 3 c2 [], .mk t3 2 c3 []]]) := by
  have h1 : foldStep src (([(⟨docTitle, 0, [], []⟩ : Frame)], 0)) ⟨s1, e1, 1, t1⟩
      = some ([⟨t1, 1, [], []⟩,
               ⟨docTitle, 0, (if s1 > 0 then (spliceText src 0 s1).1 else []), []⟩], e1) := by
    by_cases h : s1 > 0 <;>
      simp [foldStep, h, appendContentTop, popToParent, parentForLevel, popN]
  have h2 : ∀ (c1 : List Char) (rest : List Frame),
      foldStep src ((⟨t1, 1, c1, []⟩ : Frame) :: rest, e1) ⟨s2, e2, 3, t2⟩
        = some ((⟨t2, 3, [], []⟩ : Frame) ::
            (⟨t1, 1, c1 ++ (if s2 > e1 then (spliceText src e1 s2).1 else []), []⟩ : Frame)
            :: rest, e2) := by
    intro c1 rest
    by_cases h : s2 > e1 <;>
      simp [foldStep, h, appendContentTop, popToParent, parentForLevel, popN]
  have h3 : ∀ (c2 c1 : List Char) (rest : List Frame),
      foldStep src ((⟨t2, 3, c2, []⟩ : Frame) :: (⟨t1, 1, c1, []⟩ : Frame) :: rest, e2)
          ⟨s3, e3, 2, t3⟩
        = some ((⟨t3, 2, [], []⟩ : Frame) ::
            (⟨t1, 1, c1,
              [.mk t2 3 (c2 ++ (if s3 > e2 then (spliceText src e2 s3).1 else [])) []]⟩ : Frame)
            :: rest, e3) := by
    intro c2 c1 rest
    by_cases h : s3 > e2 <;>
      simp [foldStep, h, appendContentTop, popToParent, parentForLevel, popN,
        attachTop, closeFrame]
  unfold fold
  rw [show ([⟨s1, e1, 1, t1⟩, ⟨s2, e2, 3, t2⟩, ⟨s3, e3, 2, t3⟩] :
        List HeadingSpan).foldlM (foldStep src)
      (([(⟨docTitle, 0, [], []⟩ : Frame)], 0)) =
      ((foldStep src (([(⟨docTitle, 0, [], []⟩ : Frame)], 0)) ⟨s1, e1, 1, t1⟩).bind
        fun st1 => (foldStep src st1 ⟨s2, e2, 3, t2⟩).bind
          fun st2 => (foldStep src st2 ⟨s3, e3, 2, t3⟩).bind
            fun st3 => some st3) from rfl]
  rw [h1]
  simp only [Option.bind]
  rw [h2 [] [⟨docTitle, 0, (if s1 > 0 then (spliceText src 0 s1).1 else []), []⟩]]
  simp only [Option.bind]
  rw [h3 [] ([] ++ (if s2 > e1 then (spliceText src e1 s2).1 else []))
      [⟨docTitle, 0, (if s1 > 0 then (spliceText src 0 s1).1 else []), []⟩]]
  simp only [Option.bind]
  by_cases h4 : e3 < src.length <;>
    simp only [h4, if_pos, if_neg, ite_true, ite_false, appendContentTop,
      collapseStack, collapseInto, closeFrame] <;>
    exact ⟨_, _, _, _, rfl⟩

/-- A section transform as observed at a single node: a content
transformation that may fail (`section.Transform` receives the node and may
mutate its content; the error aborts the walk). -/
def STransform : Type := List Char → Option (List Char)

/-- A transform-application event: which configured transform (by index) ran
on which node (by its path of child indices from the root). -/
def TrEvent : Type := Nat × List Nat

/-- The inner loop of `section.walk`: apply the transforms in declared order
to one node's content, stopping at the first error; records one event per
application (including the failing one). -/
def runTransforms : List (Nat × STransform) → List Nat → List Char →
    Option (List Char) × List TrEvent
  | [], _, c => (some c, [])
  | (i, t) :: rest, p, c =>
    match t c with
    | none => (none, [(i, p)])
    | some c' =>
      let r := runTransforms rest p c'
      (r.1, (i, p) :: r.2)

mutual

/-- `section.walk`: apply the transforms to the node, then recurse into the
children left to right; the first error stops the walk. -/
def walkTr (ts : List (Nat × STransform)) (p : List Nat) :
    Sec → Option Sec × List TrEvent
  | .mk ti l c cs =>
    match runTransforms ts p c with
    | (none, evs) => (none, evs)
    | (some c', evs) =>
      let r := walkChildrenTr ts p 0 cs
      match r.1 with
      | none => (none, evs ++ r.2)
      | some cs' => (some (.mk ti l c' cs'), evs ++ r.2)
termination_by s => ((Sec.size s, 0) : Nat ×ₗ Nat)
decreasing_by
  apply Prod.Lex.left
  rw [secSize_eq]
  omega

/-- The child loop of `section.walk`. -/
def walkChildrenTr (ts : List (Nat × STransform)) (p : List Nat) (i : Nat) :
    List Sec → Option (List Sec) × List TrEvent
  | [] => (some [], [])
  | c :: rest =>
    match walkTr ts (p ++ [i]) c with
    | (none, evs) => (none, evs)
    | (some c', evs) =>
      let r := walkChildrenTr ts p (i + 1) rest
      match r.1 with
      | none => (none, evs ++ r.2)
      | some rest' => (some (c' :: rest'), evs ++ r.2)
termination_by cs => ((((cs.map Sec.size).sum : Nat), cs.length + 1) : Nat ×ₗ Nat)
decreasing_by
  · rcases Nat.eq_zero_or_pos ((rest.map Sec.size).sum) with h | h
    · simp only [List.map_cons, List.sum_cons, h, Nat.add_zero]
      apply Prod.Lex.right
      omega
    · apply Prod.Lex.left
      simp only [List.map_cons, List.sum_cons]
      omega
  · apply Prod.Lex.left
    simp only [List.map_cons, List.sum_cons]
    have := Sec.size_pos c
    omega

end

/-- Index-tag a transform list from a starting index (the `for i, transform
:= range ...` loop counter of `Push`). -/
def enumFrom (k : Nat) : List STransform → List (Nat × STransform)
  | [] => []
  | t :: rest => (k, t) :: enumFrom (k + 1) rest

/-- The section-transform phase of `defaultChunker.Push`: for each configured
transform in order, run `section.ApplyTransform` (a full tree walk with that
single transform); the first error aborts the phase. -/
def pushPhase : List (Nat × STransform) → Sec → Option Sec × List TrEvent
  | [], s => (some s, [])
  | (i, t) :: rest, s =>
    match walkTr [(i, t)] [] s with
    | (none, evs) => (none, evs)
    | (some s', evs) =>
      let r := pushPhase rest s'
      (r.1, evs ++ r.2)

/-- The whole section-transform phase of one `Push` call. -/
def sectionTransformPhase (ts : List STransform) (root : Sec) :
    Option Sec × List TrEvent :=
  pushPhase (enumFrom 0 ts) root

/-- The ordering property claimed of the phase: any transform application to
a node precedes any transform application to that node's first child. -/
def NodeBeforeFirstChild (tr : List TrEvent) : Prop :=
  ∀ (q : List Nat) (a b : Nat) (ha : a < tr.length) (hb : b < tr.length),
    (tr[a]).2 = q → (tr[b]).2 = q ++ [0] → a < b

/-- The per-transform ordering property: applications of one and the same
transform reach a node before that node's first child. -/
def NodeBeforeFirstChildPerTr (tr : List TrEvent) : Prop :=
  ∀ (i : Nat) (q : List Nat) (a b : Nat) (ha : a < tr.length) (hb : b < tr.length),
    tr[a] = (i, q) → tr[b] = (i, q ++ [0]) → a < b

theorem runTransforms_events :
    ∀ (ts : List (Nat × STransform)) (p : List Nat) (c : List Char),
      ∀ e ∈ (runTransforms ts p c).2, e.2 = p ∧ e.1 ∈ ts.map Prod.fst := by
  intro ts
  induction ts with
  | nil => intro p c e he; simp [runTransforms] at he
  | cons it rest ih =>
    intro p c e he
    obtain ⟨i, t⟩ := it
    rw [runTransforms] at he
    cases ht : t c with
    | none =>
      rw [ht] at he
      simp only [List.mem_singleton] at he
      subst he
      exact ⟨rfl, by simp⟩
    | some c' =>
      rw [ht] at he
      simp only [List.mem_cons] at he
      rcases he with rfl | he
      · exact ⟨rfl, by simp⟩
      · obtain ⟨h1, h2⟩ := ih p c' e he
        exact ⟨h1, by simp [h2]⟩

/-- Path and tag discipline of the walk: every event of `walkTr ts p s` has a
path extending `p` and a tag from `ts`; every event of the child loop from
index `i` has a path extending `p ++ [j]` for some `j ≥ i`. -/
theorem walk_events :
    ∀ (n : Nat),
      (∀ (ts : List (Nat × STransform)) (p : List Nat) (s : Sec),
        Sec.size s ≤ n → ∀ e ∈ (walkTr ts p s).2,
          p <+: e.2 ∧ e.1 ∈ ts.map Prod.fst) ∧
      (∀ (ts : List (Nat × STransform)) (p : List Nat) (i : Nat) (cs : List Sec),
        (cs.map Sec.size).sum ≤ n → ∀ e ∈ (walkChildrenTr ts p i cs).2,
          (∃ j, i ≤ j ∧ (p ++ [j]) <+: e.2) ∧ e.1 ∈ ts.map Prod.fst) := by
  intro n
  induction n with
  | zero =>
    constructor
    · intro ts p s hs
      have := Sec.size_pos s
      omega
    · intro ts p i cs hcs e he
      cases cs with
      | nil => simp [walkChildrenTr] at he
      | cons c rest =>
        have := Sec.size_pos c
        simp only [List.map_cons, List.sum_cons] at hcs
        omega
  | succ n ih =>
    have hwalk : ∀ (ts : List (Nat × STransform)) (p : List Nat) (s : Sec),
        Sec.size s ≤ n + 1 → ∀ e ∈ (walkTr ts p s).2,
          p <+: e.2 ∧ e.1 ∈ ts.map Prod.fst := by
      intro ts p s hs e he
      obtain ⟨ti, l, c, cs⟩ := s
      rw [secSize_eq] at hs
      rw [walkTr] at he
      rcases hrun : runTransforms ts p c with ⟨o, evs⟩
      rw [hrun] at he
      have hevs : ∀ e ∈ evs, e.2 = p ∧ e.1 ∈ ts.map Prod.fst := by
        intro e he'
        have := runTransforms_events ts p c e (by rw [hrun]; exact he')
        exact this
      cases o with
      | none =>
        simp only at he
        obtain ⟨h1, h2⟩ := hevs e he
        exact ⟨h1 ▸ List.prefix_refl p, h2⟩
      | some c' =>
        simp only at he
        rcases hkids : walkChildrenTr ts p 0 cs with ⟨ko, kevs⟩
        rw [hkids] at he
        have hin : e ∈ evs ++ kevs := by
          cases ko <;> simpa using he
        rcases List.mem_append.1 hin with h | h
        · obtain ⟨h1, h2⟩ := hevs e h
          exact ⟨h1 ▸ List.prefix_refl p, h2⟩
        · obtain ⟨⟨j, _, hpre⟩, htag⟩ := (ih.2 ts p 0 cs (by omega)) e (by rw [hkids]; exact h)
          exact ⟨List.IsPrefix.trans ⟨[j], rfl⟩ hpre, htag⟩
    refine ⟨hwalk, ?_⟩
    intro ts p i cs hcs e he
    cases cs with
    | nil => simp [walkChildrenTr] at he
    | cons c rest =>
      simp only [List.map_cons, List.sum_cons] at hcs
      have hc1 := Sec.size_pos c
      rw [walkChildrenTr] at he
      rcases hw : walkTr ts (p ++ [i]) c with ⟨wo, wevs⟩
      rw [hw] at he
      have hwevs : ∀ e ∈ wevs, (p ++ [i]) <+: e.2 ∧ e.1 ∈ ts.map Prod.fst := by
        intro e he'
        exact hwalk ts (p ++ [i]) c (by omega) e (by rw [hw]; exact he')
      cases wo with
      | none =>
        simp only at he
        obtain ⟨h1, h2⟩ := hwevs e he
        exact ⟨⟨i, le_rfl, h1⟩, h2⟩
      | some c' =>
        simp only at he
        rcases hrest : walkChildrenTr ts p (i + 1) rest with ⟨ro, revs⟩
        rw [hrest] at he
        have hin : e ∈ wevs ++ revs := by
          cases ro <;> simpa using he
        rcases List.mem_append.1 hin with h | h
        · obtain ⟨h1, h2⟩ := hwevs e h
          exact ⟨⟨i, le_rfl, h1⟩, h2⟩
        · obtain ⟨⟨j, hj, hpre⟩, htag⟩ :=
            (ih.2 ts p (i + 1) rest (by omega)) e (by rw [hrest]; exact h)
          exact ⟨⟨j, by omega, hpre⟩, htag⟩

theorem nodeBefore_of_const_path (A : List TrEvent) (p : List Nat)
    (h : ∀ e ∈ A, e.2 = p) : NodeBeforeFirstChild A := by
  intro q a b ha hb hqa hqb
  have h1 := h _ (List.getElem_mem ha)
  have h2 := h _ (List.getElem_mem hb)
  rw [hqa] at h1
  rw [hqb] at h2
  rw [← h1] at h2
  have := congrArg List.length h2
  simp at this

theorem nodeBefore_append (A B : List TrEvent)
    (hA : NodeBeforeFirstChild A) (hB : NodeBeforeFirstChild B)
    (hcross : ∀ q, (∃ e ∈ B, e.2 = q) → (∃ e ∈ A, e.2 = q ++ [0]) → False) :
    NodeBeforeFirstChild (A ++ B) := by
  intro q a b ha hb hqa hqb
  have ha0 : a < A.length + B.length := by simpa using ha
  have hb0 : b < A.length + B.length := by simpa using hb
  by_cases haA : a < A.length
  · by_cases hbA : b < A.length
    · refine hA q a b haA hbA ?_ ?_
      · rw [← hqa, List.getElem_append_left haA]
      · rw [← hqb, List.getElem_append_left hbA]
    · omega
  · have hamem : (A ++ B)[a] ∈ B := by
      rw [List.getElem_append_right (by omega)]
      exact List.getElem_mem (by omega)
    by_cases hbA : b < A.length
    · have hbmem : (A ++ B)[b] ∈ A := by
        rw [List.getElem_append_left hbA]
        exact List.getElem_mem hbA
      exact absurd (hcross q ⟨_, hamem, hqa⟩ ⟨_, hbmem, hqb⟩) (by simp)
    · have ha' : a - A.length < B.length := by omega
      have hb' : b - A.length < B.length := by omega
      have := hB q (a - A.length) (b - A.length) ha' hb' ?_ ?_
      · omega
      · rw [← hqa, List.getElem_append_right (by omega)]
      · rw [← hqb, List.getElem_append_right (by omega)]

theorem nodeBefore_nil : NodeBeforeFirstChild ([] : List TrEvent) := by
  intro q a b ha
  simp at ha

/-- Main ordering lemma: within one walk, every transform application to a
node precedes every application to that node's first child. -/
theorem walk_ord_aux :
    ∀ (n : Nat),
      (∀ (ts : List (Nat × STransform)) (p : List Nat) (s : Sec),
        Sec.size s ≤ n → NodeBeforeFirstChild (walkTr ts p s).2) ∧
      (∀ (ts : List (Nat × STransform)) (p : List Nat) (i : Nat) (cs : List Sec),
        (cs.map Sec.size).sum ≤ n →
          NodeBeforeFirstChild (walkChildrenTr ts p i cs).2) := by
  intro n
  induction n with
  | zero =>
    constructor
    · intro ts p s hs
      have := Sec.size_pos s
      omega
    · intro ts p i cs hcs
      cases cs with
      | nil =>
        rw [walkChildrenTr]
        exact nodeBefore_nil
      | cons c rest =>
        have := Sec.size_pos c
        simp only [List.map_cons, List.sum_cons] at hcs
        omega
  | succ n ih =>
    have hwalk : ∀ (ts : List (Nat × STransform)) (p : List Nat) (s : Sec),
        Sec.size s ≤ n + 1 → NodeBeforeFirstChild (walkTr ts p s).2 := by
      intro ts p s hs
      obtain ⟨ti, l, c, cs⟩ := s
      rw [secSize_eq] at hs
      rw [walkTr]
      rcases hrun : runTransforms ts p c with ⟨o, evs⟩
      have hevs_const : ∀ e ∈ evs, e.2 = p := by
        intro e he
        exact (runTransforms_events ts p c e (by rw [hrun]; exact he)).1
      cases o with
      | none => exact nodeBefore_of_const_path evs p hevs_const
      | some c' =>
        rcases hkids : walkChildrenTr ts p 0 cs with ⟨ko, kevs⟩
        have hkord : NodeBeforeFirstChild kevs := by
          have := ih.2 ts p 0 cs (by omega)
          rwa [hkids] at this
        have hcross : ∀ q, (∃ e ∈ kevs, e.2 = q) →
            (∃ e ∈ evs, e.2 = q ++ [0]) → False := by
          rintro q ⟨e1, he1, hq1⟩ ⟨e2, he2, hq2⟩
          obtain ⟨⟨j, _, hpre⟩, _⟩ :=
            (walk_events ((cs.map Sec.size).sum)).2 ts p 0 cs le_rfl e1
              (by rw [hkids]; exact he1)
          have hlen1 : p.length + 1 ≤ q.length := by
            have := hpre.length_le
            rw [hq1] at this
            simpa using this
          have hlen2 : q.length + 1 = p.length := by
            have := congrArg List.length (hevs_const e2 he2)
            rw [hq2] at this
            simpa using this
          omega
        have happ := nodeBefore_append evs kevs
          (nodeBefore_of_const_path evs p hevs_const) hkord hcross
        cases ko <;> exact happ
    refine ⟨hwalk, ?_⟩
    intro ts p i cs hcs
    cases cs with
    | nil =>
      rw [walkChildrenTr]
      exact nodeBefore_nil
    | cons c rest =>
      simp only [List.map_cons, List.sum_cons] at hcs
      have hc1 := Sec.size_pos c
      rw [walkChildrenTr]
      rcases hw : walkTr ts (p ++ [i]) c with ⟨wo, wevs⟩
      have hword : NodeBeforeFirstChild wevs := by
        have := hwalk ts (p ++ [i]) c (by omega)
        rwa [hw] at this
      cases wo with
      | none => exact hword
      | some c' =>
        rcases hrest : walkChildrenTr ts p (i + 1) rest with ⟨ro, revs⟩
        have hrord : NodeBeforeFirstChild revs := by
          have := ih.2 ts p (i + 1) rest (by omega)
          rwa [hrest] at this
        have hcross : ∀ q, (∃ e ∈ revs, e.2 = q) →
            (∃ e ∈ wevs, e.2 = q ++ [0]) → False := by
          rintro q ⟨e1, he1, hq1⟩ ⟨e2, he2, hq2⟩
          obtain ⟨⟨j, hj, hpre1⟩, _⟩ :=
            (walk_events ((rest.map Sec.size).sum)).2 ts p (i + 1) rest le_rfl e1
              (by rw [hrest]; exact he1)
          obtain ⟨hpre2, _⟩ :=
            (walk_events (Sec.size c)).1 ts (p ++ [i]) c le_rfl e2
              (by rw [hw]; exact he2)
          rw [hq1] at hpre1
          rw [hq2] at hpre2
          obtain ⟨u, hu⟩ := hpre1
          obtain ⟨v, hv⟩ := hpre2
          rw [← hu] at hv
          rw [List.append_assoc, List.append_assoc, List.append_assoc] at hv
          have hcancel := List.append_cancel_left hv
          rw [List.singleton_append, List.singleton_append] at hcancel
          have hij : i = j := by injection hcancel
          omega
        cases ro <;> exact nodeBefore_append wevs revs hword hrord hcross

theorem walk_ord (ts : List (Nat × STransform)) (p : List Nat) (s : Sec) :
    NodeBeforeFirstChild (walkTr ts p s).2 :=
  (walk_ord_aux (Sec.size s)).1 ts p s le_rfl

theorem perTr_of_nodeBefore {tr : List TrEvent} (h : NodeBeforeFirstChild tr) :
    NodeBeforeFirstChildPerTr tr := by
  intro i q a b ha hb hqa hqb
  exact h q a b ha hb (by rw [hqa]) (by rw [hqb])

theorem perTr_append (i0 : Nat) (A B : List TrEvent)
    (htagsA : ∀ e ∈ A, e.1 = i0) (htagsB : ∀ e ∈ B, i0 < e.1)
    (hA : NodeBeforeFirstChildPerTr A) (hB : NodeBeforeFirstChildPerTr B) :
    NodeBeforeFirstChildPerTr (A ++ B) := by
  intro j q a b ha hb hqa hqb
  have ha0 : a < A.length + B.length := by simpa using ha
  have hb0 : b < A.length + B.length := by simpa using hb
  by_cases haA : a < A.length
  · by_cases hbA : b < A.length
    · refine hA j q a b haA hbA ?_ ?_
      · rw [← hqa, List.getElem_append_left haA]
      · rw [← hqb, List.getElem_append_left hbA]
    · omega
  · have hatag : j ∈ B.map Prod.fst := by
      have : (A ++ B)[a] ∈ B := by
        rw [List.getElem_append_right (by omega)]
        exact List.getElem_mem (by omega)
      have := List.mem_map_of_mem Prod.fst this
      rwa [hqa] at this
    obtain ⟨e, he, htage⟩ := List.mem_map.1 hatag
    have hjgt : i0 < j := htage ▸ htagsB e he
    by_cases hbA : b < A.length
    · have : (A ++ B)[b] ∈ A := by
        rw [List.getElem_append_left hbA]
        exact List.getElem_mem hbA
      have htagb := htagsA _ this
      rw [hqb] at htagb
      simp only at htagb
      omega
    · have ha' : a - A.length < B.length := by omega
      have hb' : b - A.length < B.length := by omega
      have := hB j q (a - A.length) (b - A.length) ha' hb' ?_ ?_
      · omega
      · rw [← hqa, List.getElem_append_right (by omega)]
      · rw [← hqb, List.getElem_append_right (by omega)]

theorem sorted_const_tags {A : List TrEvent} {i : Nat}
    (h : ∀ e ∈ A, e.1 = i) : List.Sorted (· ≤ ·) (A.map Prod.fst) := by
  induction A with
  | nil => simp
  | cons e l ih =>
    rw [List.map_cons, List.sorted_cons]
    constructor
    · intro b hb
      obtain ⟨e', he', rfl⟩ := List.mem_map.1 hb
      rw [h e (by simp), h e' (by simp [he'])]
    · exact ih (fun e' he' => h e' (by simp [he']))

theorem pushPhase_tags :
    ∀ (l : List (Nat × STransform)) (s : Sec),
      ∀ e ∈ (pushPhase l s).2, e.1 ∈ l.map Prod.fst := by
  intro l
  induction l with
  | nil => intro s e he; simp [pushPhase] at he
  | cons it rest ih =>
    intro s e he
    obtain ⟨i, t⟩ := it
    rw [pushPhase] at he
    rcases hw : walkTr [(i, t)] [] s with ⟨o, evs⟩
    rw [hw] at he
    have hevs : ∀ e ∈ evs, e.1 = i := by
      intro e he'
      have := ((walk_events (Sec.size s)).1 [(i, t)] [] s le_rfl e
        (by rw [hw]; exact he')).2
      simpa using this
    cases o with
    | none =>
      simp only at he
      simp [hevs e he]
    | some s' =>
      simp only at he
      rcases List.mem_append.1 he with h | h
      · simp [hevs e h]
      · have := ih s' e h
        simp only [List.map_cons]
        exact List.mem_cons_of_mem _ this

theorem pushPhase_ord :
    ∀ (l : List (Nat × STransform)) (s : Sec),
      List.Pairwise (fun x y => x.1 < y.1) l →
      NodeBeforeFirstChildPerTr (pushPhase l s).2 ∧
      List.Sorted (· ≤ ·) ((pushPhase l s).2.map Prod.fst) := by
  intro l
  induction l with
  | nil =>
    intro s _
    constructor
    · intro i q a b ha
      simp [pushPhase] at ha
    · simp [pushPhase]
  | cons it rest ih =>
    intro s hpw
    obtain ⟨i, t⟩ := it
    obtain ⟨hhead, hpw'⟩ := List.pairwise_cons.1 hpw
    rw [pushPhase]
    rcases hw : walkTr [(i, t)] [] s with ⟨o, evs⟩
    have hevs_tag : ∀ e ∈ evs, e.1 = i := by
      intro e he
      have := ((walk_events (Sec.size s)).1 [(i, t)] [] s le_rfl e
        (by rw [hw]; exact he)).2
      simpa using this
    have hevs_ord : NodeBeforeFirstChild evs := by
      have := walk_ord [(i, t)] [] s
      rwa [hw] at this
    cases o with
    | none =>
      exact ⟨perTr_of_nodeBefore hevs_ord, sorted_const_tags hevs_tag⟩
    | some s' =>
      obtain ⟨hp, hs⟩ := ih s' hpw'
      have htagsB : ∀ e ∈ (pushPhase rest s').2, i < e.1 := by
        intro e he
        obtain ⟨x, hx, htagx⟩ := List.mem_map.1 (pushPhase_tags rest s' e he)
        exact htagx ▸ hhead x hx
      constructor
      · exact perTr_append i evs (pushPhase rest s').2 hevs_tag htagsB
          (perTr_of_nodeBefore hevs_ord) hp
      · rw [List.map_append]
        rw [show List.Sorted (· ≤ ·) (List.map Prod.fst evs
            ++ List.map Prod.fst (pushPhase rest s').2) ↔ _ from List.pairwise_append]
        refine ⟨sorted_const_tags hevs_tag, hs, ?_⟩
        intro x hx y hy
        obtain ⟨e, he, rfl⟩ := List.mem_map.1 hx
        obtain ⟨e', he', rfl⟩ := List.mem_map.1 hy
        rw [hevs_tag e he]
        exact (htagsB e' he').le

theorem enumFrom_ge :
    ∀ (l : List STransform) (k : Nat), ∀ e ∈ enumFrom k l, k ≤ e.1 := by
  intro l
  induction l with
  | nil => intro k e he; simp [enumFrom] at he
  | cons t rest ih =>
    intro k e he
    rw [enumFrom] at he
    rcases List.mem_cons.1 he with rfl | he'
    · exact le_rfl
    · exact le_trans (by omega) (ih (k + 1) e he')

theorem enumFrom_pairwise :
    ∀ (l : List STransform) (k : Nat),
      List.Pairwise (fun x y => x.1 < y.1) (enumFrom k l) := by
  intro l
  induction l with
  | nil => intro k; simp [enumFrom]
  | cons t rest ih =>
    intro k
    rw [enumFrom, List.pairwise_cons]
    exact ⟨fun y hy => lt_of_lt_of_le (by omega) (enumFrom_ge rest (k + 1) y hy), ih (k + 1)⟩

/-- C4 (amended): during the section-transform phase of one `Push` call,
each configured transform runs as its own full depth-first pre-order walk:
any application of one and the same transform reaches a node before that
node's first child, and all applications of an earlier-configured transform
precede all applications of a later one (the transform indices along the
event trace are nondecreasing). -/
theorem push_phase_transform_order (ts : List STransform) (root : Sec) :
    NodeBeforeFirstChildPerTr (sectionTransformPhase ts root).2
    ∧ List.Sorted (· ≤ ·) ((sectionTransformPhase ts root).2.map Prod.fst) :=
  pushPhase_ord (enumFrom 0 ts) root (enumFrom_pairwise ts 0)

/-- C4 counterexample: with two configured transforms and a root with one
child, the phase applies transform 0 to the child before it applies
transform 1 to the root, so it is not the case that every transform in the
list is applied to a node before any transform in the list is applied to
that node's first child. -/
theorem push_phase_not_node_before_first_child :
    ¬ NodeBeforeFirstChild
      (sectionTransformPhase [fun c => some c, fun c => some c]
        (.mk "r" 0 [] [.mk "c" 1 [] []])).2 := by
  have htr : (sectionTransformPhase [fun c => some c, fun c => some c]
      (.mk "r" 0 [] [.mk "c" 1 [] []])).2
      = [(0, []), (0, [0]), (1, []), (1, [0])] := by
    simp [sectionTransformPhase, enumFrom, pushPhase, walkTr, walkChildrenTr,
      runTransforms]
  intro h
  rw [htr] at h
  have := h [] 2 1 (by decide) (by decide) rfl rfl
  omega

end Chunky
